import Mathlib

set_option maxHeartbeats 1000000

namespace Mcdb

/-!  A shallow embedding of the mcdb sharding layer (mcdb.go).

Byte strings are `List Nat`, with values taken mod 256 exactly where the Go
`byte` type bounds them.  The external single-shard cdb engine (out of scope
per the spec) is modelled as a list of records in insertion order together
with a capacity parameter `cap` standing for its size limit: `put` fails with
the capacity-exceeded signal when a shard's total payload would exceed `cap`.
File system state is a list of (file name, finalized record list) pairs; the
uint32 range of name fields is not modelled (totals near 2^32 files are not
realizable).  Go runtime panics (out-of-range slice indexing, negative shift
counts) are modelled by distinguished constructors, kept separate from
returned error values.  -/

/-- A key/value record (`[]byte` key and value). -/
abbrev Rec := List Nat × List Nat

/-- A file name, as a character list. -/
abbrev FName := List Char

/-- A directory: file name to the finalized cdb contents, in insertion order. -/
abbrev Dir := List (FName × List Rec)

/-- FNV-1 32-bit (`hash/fnv.New32`): start from the offset basis; per byte,
multiply by the prime mod 2^32 and xor the byte in. -/
def fnvHash (p : List Nat) : Nat :=
  p.foldl (fun h b => Nat.xor (h * 16777619 % 4294967296) (b % 256)) 2166136261

/-- `bucket(h, key, expC)`: 0 when expC = 32, else `h(key) >> expC`.
`none` models the Go runtime panic on a negative shift count. -/
def bucket (h : List Nat → Nat) (key : List Nat) (expC : Int) : Option Nat :=
  if expC = 32 then some 0
  else if expC < 0 then none
  else some (h key / 2 ^ expC.toNat)

/-- The table-count loop of `NewWriter`:
`for n2 = 1; n2 < n; n2 <<= 1 { expC-- }`, generalized over the running
state `(n2, expC)`.  The first argument is recursion gas; `n` steps always
suffice from `n2 = 1`, since `n2` at least doubles per step. -/
def growLoop : Nat → Nat → Nat → Int → Nat × Int
  | 0, _, n2, expC => (n2, expC)
  | gas + 1, n, n2, expC =>
    if n2 < n then growLoop gas n (2 * n2) (expC - 1) else (n2, expC)

/-- What `NewWriter(dir, n)` computes from `n`: (canGrow, table count, expC). -/
def writerParams (n : Int) : Bool × Nat × Int :=
  let n' : Nat := if n = 0 then 2 else n.natAbs
  (decide (n ≤ 0), growLoop n' n' 1 32)

/-- Digits of `n` in base `b`, least significant first, with structural gas
(`n` itself is always enough gas; agrees with `Nat.digits`, see
`digitsF_eq`). -/
def digitsF (b : Nat) : Nat → Nat → List Nat
  | 0, _ => []
  | _, 0 => []
  | gas + 1, n + 1 => (n + 1) % b :: digitsF b gas ((n + 1) / b)

/-- Decimal digits of `n`, most significant first, as `%d` prints. -/
def decChars (n : Nat) : List Char :=
  if n = 0 then ['0'] else ((digitsF 10 n n).map (fun d => Char.ofNat (48 + d))).reverse

/-- Binary digits of `i`, most significant first, as `%b` prints. -/
def binChars (i : Nat) : List Char :=
  if i = 0 then ['0'] else ((digitsF 2 i i).map (fun d => Char.ofNat (48 + d))).reverse

/-- `%0<width>b`: binary, zero-padded on the left to `width`. -/
def binPad (i width : Nat) : List Char :=
  List.replicate (width - (binChars i).length) '0' ++ binChars i

/-- v1 shard file name: `Sprintf("mcdb-v%d-%d,%0<width>b.cdb", 1, total, i)`,
where the writer picks `width = 32 - expC + 1`. -/
def mkName (total i width : Nat) : FName :=
  "mcdb-v1-".toList ++ decChars total ++ [','] ++ binPad i width ++ ".cdb".toList

/-- One digit for `Sscanf`'s `%d` over characters. -/
def decDigit (c : Char) : Option Nat :=
  if 48 ≤ c.toNat ∧ c.toNat ≤ 57 then some (c.toNat - 48) else none

/-- One digit for `Sscanf`'s `%b` over characters. -/
def binDigit (c : Char) : Option Nat :=
  if c.toNat = 48 then some 0 else if c.toNat = 49 then some 1 else none

/-- Maximal digit run, big-endian accumulation of a base-`base` value. -/
def parseRun (digitOf : α → Option Nat) (base : Nat) : List α → Nat → Nat × List α
  | [], acc => (acc, [])
  | c :: r, acc =>
    match digitOf c with
    | some d => parseRun digitOf base r (base * acc + d)
    | none => (acc, c :: r)

/-- A number verb: at least one digit, then the maximal run. -/
def parseNum (digitOf : α → Option Nat) (base : Nat) : List α → Option (Nat × List α)
  | [] => none
  | c :: r =>
    match digitOf c with
    | some d => some (parseRun digitOf base r d)
    | none => none

def pfxMcdb : FName := "mcdb-".toList

def pfxMcdbV : FName := "mcdb-v".toList

def sfxCdb : FName := ".cdb".toList

/-- Drop a literal from the front, failing on mismatch. -/
def stripLit (p s : FName) : Option FName :=
  if p.isPrefixOf s then some (s.drop p.length) else none

/-- `fmt.Sscanf(name, "mcdb-v%d-%d,%b.cdb", &v, &u1, &u2)`. -/
def parseNameV1 (nm : FName) : Option (Nat × Nat × Nat) := do
  let r ← stripLit pfxMcdbV nm
  let (v, r) ← parseNum decDigit 10 r
  let r ← (match r with | '-' :: r2 => some r2 | _ => none)
  let (u1, r) ← parseNum decDigit 10 r
  let r ← (match r with | ',' :: r2 => some r2 | _ => none)
  let (u2, r) ← parseNum binDigit 2 r
  let _ ← stripLit sfxCdb r
  some (v, u1, u2)

/-- `fmt.Sscanf(name, "mcdb-%d,%b.cdb", &u1, &u2)` (legacy v0 names). -/
def parseNameV0 (nm : FName) : Option (Nat × Nat) := do
  let r ← stripLit pfxMcdb nm
  let (u1, r) ← parseNum decDigit 10 r
  let r ← (match r with | ',' :: r2 => some r2 | _ => none)
  let (u2, r) ← parseNum binDigit 2 r
  let _ ← stripLit sfxCdb r
  some (u1, u2)

/-- Look a file up by name (empty contents when absent). -/
def dirGet (d : Dir) (nm : FName) : List Rec :=
  ((d.find? (fun e => decide (e.1 = nm))).map (·.2)).getD []

/-- Create or truncate-and-rewrite a file (`os.Create` + writes). -/
def dirSet (d : Dir) (nm : FName) (recs : List Rec) : Dir :=
  if d.any (fun e => decide (e.1 = nm)) then
    d.map (fun e => if e.1 = nm then (nm, recs) else e)
  else d ++ [(nm, recs)]

/-- `os.Remove`. -/
def dirRemove (d : Dir) (nm : FName) : Dir :=
  d.filter (fun e => decide (¬ e.1 = nm))

/-- The Reader: opened shard contents indexed by shard index, plus the
derived exponent and the directory's format version. -/
structure MReader where
  rs : List (List Rec)
  expC : Int
  version : Nat
deriving Repr, DecidableEq, Inhabited

/-- How `NewReader` can fail; `indexPanic` models the Go runtime panic of the
out-of-range slice write `m.rs[u2] = ...`, not a returned error. -/
inductive RdErr
  | parseFail
  | unknownVersion
  | versionMismatch
  | firstNum
  | secondNum
  | noFiles
  | missingIdx (total idx : Nat)
  | indexPanic (idx : Nat)
deriving Repr, DecidableEq

/-- The scan state of `NewReader`'s directory loop. -/
structure ScanSt where
  slots : Option (List (Option (List Rec)))
  expC : Int
  version : Nat
deriving Repr, DecidableEq

def initScan : ScanSt := { slots := none, expC := 32, version := 0 }

/-- The name filter: `strings.HasPrefix(nm, "mcdb-") && strings.HasSuffix(nm, ".cdb")`. -/
def matchesPat (nm : FName) : Bool := pfxMcdb.isPrefixOf nm && sfxCdb.isSuffixOf nm

/-- Parse a matching name with the v1 pattern when it starts `mcdb-v`, else
the v0 pattern (version 0). -/
def parseEntry (nm : FName) : Option (Nat × Nat × Nat) :=
  if pfxMcdbV.isPrefixOf nm then parseNameV1 nm
  else (parseNameV0 nm).map (fun p => (0, p))

/-- `for i := 1; i < len; i <<= 1 { expC-- }` starting from 32. -/
def expOf (len : Nat) : Int := (growLoop len len 1 32).2

/-- The per-file checks after parsing: total must equal the slot count,
index must not exceed the total, then the slot write (an out-of-range index
panics). -/
def scanPlace (expC : Int) (version : Nat) (sl : List (Option (List Rec)))
    (u1 u2 : Nat) (recs : List Rec) : Except RdErr ScanSt :=
  if u1 ≠ sl.length then .error .firstNum
  else if u1 < u2 then .error .secondNum
  else if u2 < sl.length then
    .ok { slots := some (sl.set u2 (some recs)), expC := expC, version := version }
  else .error (.indexPanic u2)

/-- One directory entry of `NewReader`'s loop. -/
def scanStep (st : ScanSt) (f : FName × List Rec) : Except RdErr ScanSt :=
  if ¬ matchesPat f.1 then .ok st
  else
    match parseEntry f.1 with
    | none => .error .parseFail
    | some (v, u1, u2) =>
      match st.slots with
      | none =>
        if v = 0 ∨ v = 1 then
          scanPlace (expOf u1) v (List.replicate u1 none) u1 u2 f.2
        else .error .unknownVersion
      | some sl =>
        if st.version = v then scanPlace st.expC st.version sl u1 u2 f.2
        else .error .versionMismatch

def scanAll (st : ScanSt) : List (FName × List Rec) → Except RdErr ScanSt
  | [] => .ok st
  | f :: fs =>
    match scanStep st f with
    | .error e => .error e
    | .ok st' => scanAll st' fs

/-- Byte-wise lexicographic order on names (`os.ReadDir` returns entries
sorted by file name). -/
def nameLeB : FName → FName → Bool
  | [], _ => true
  | _ :: _, [] => false
  | a :: as, b :: bs =>
    if a.toNat < b.toNat then true
    else if b.toNat < a.toNat then false
    else nameLeB as bs

def fileLe (a b : FName × List Rec) : Prop := nameLeB a.1 b.1 = true

instance : DecidableRel fileLe := fun a b =>
  inferInstanceAs (Decidable (nameLeB a.1 b.1 = true))

def sortDir (d : Dir) : Dir := List.insertionSort fileLe d

/-- `for i, r := range m.rs { if r == nil { ... i ... } }`. -/
def firstNoneIdx : List (Option (List Rec)) → Nat → Option Nat
  | [], _ => none
  | none :: _, i => some i
  | some _ :: rest, i => firstNoneIdx rest (i + 1)

/-- `NewReader` over a directory's entries: scan in name order, then the
zero-shards and completeness checks. -/
def newReaderDir (files : Dir) : Except RdErr MReader :=
  match scanAll initScan (sortDir files) with
  | .error e => .error e
  | .ok st =>
    match st.slots with
    | none => .error .noFiles
    | some sl =>
      if sl.length = 0 then .error .noFiles
      else
        match firstNoneIdx sl 0 with
        | some i => .error (.missingIdx sl.length i)
        | none =>
          .ok { rs := sl.map (fun o => o.getD []), expC := st.expC, version := st.version }

/-- The Writer: the directory it lives in, its open shard files by name,
the exponent, and the growth flag. -/
structure MWriter where
  dir : Dir
  ws : List FName
  expC : Int
  canGrow : Bool
deriving Repr, DecidableEq, Inhabited

/-- `NewWriter(dir, n)`: compute the parameters and create the shard files. -/
def newMWriter (dir0 : Dir) (n : Int) : MWriter :=
  let p := writerParams n
  let names := (List.range p.2.1).map (fun i => mkName p.2.1 i (32 - p.2.2 + 1).toNat)
  { dir := names.foldl (fun d nm => dirSet d nm []) dir0
    ws := names
    expC := p.2.2
    canGrow := p.1 }

/-- `Writer.Close`: the shard-writer slice is emptied; file contents stay. -/
def closeM (m : MWriter) : MWriter := { m with ws := [] }

/-- The merged iterator's state: the opened shards, the current shard index
and the rest of the current shard's records. -/
structure ItSt where
  rs : List (List Rec)
  i : Nat
  cur : List Rec
deriving Repr, DecidableEq

/-- The shard-advancing loop inside `Iterator.Next`
(`for m.i < len(m.m.rs)-1 { m.i++; ... }`); the first argument is recursion
gas, with `rs.length` steps always sufficient. -/
def advanceIt (rs : List (List Rec)) : Nat → Nat → Option (Nat × Rec × List Rec)
  | 0, _ => none
  | gas + 1, i =>
    if h : i < rs.length - 1 then
      match rs.get ⟨i + 1, by omega⟩ with
      | [] => advanceIt rs gas (i + 1)
      | r :: rest => some (i + 1, r, rest)
    else none

/-- `Iterator.Next` with the yielded record: pop the current shard's cursor,
else advance to the next non-empty shard. -/
def itNext (s : ItSt) : Option (Rec × ItSt) :=
  match s.cur with
  | r :: rest => some (r, { s with cur := rest })
  | [] =>
    match advanceIt s.rs s.rs.length s.i with
    | some (j, r, rest) => some (r, { rs := s.rs, i := j, cur := rest })
    | none => none

/-- Run the iterator to exhaustion (the `for it.Next()` loop), collecting
every yielded record in order; the gas argument bounds the loop, and
`iterFuel` below always suffices. -/
def collectIt : Nat → ItSt → List Rec
  | 0, _ => []
  | gas + 1, s =>
    match itNext s with
    | some (r, s') => r :: collectIt gas s'
    | none => []

/-- Enough iterator steps to exhaust `rs`: one per record plus one per shard. -/
def iterFuel (rs : List (List Rec)) : Nat := rs.length + (rs.map List.length).sum + 1

/-- `Reader.Iter`: nil when there is no shard, else a cursor on shard 0. -/
def iterM (r : MReader) : Option ItSt :=
  match r.rs with
  | [] => none
  | s0 :: _ => some { rs := r.rs, i := 0, cur := s0 }

/-- The full iteration sequence of a reader (empty for a nil iterator). -/
def readerSeq (r : MReader) : List Rec :=
  (iterM r).elim [] (fun s => collectIt (iterFuel r.rs) s)

/-- The single-shard engine's lookup: first record with the key, or absent. -/
def cdbGet (recs : List Rec) (key : List Nat) : Option (List Nat) :=
  (recs.find? (fun e => decide (e.1 = key))).map (·.2)

/-- `Reader.Get`'s outcome; `panic` models the uncatchable faults (negative
shift, out-of-range shard index). -/
inductive GetRes
  | ok (v : Option (List Nat))
  | panic
deriving Repr, DecidableEq

/-- `Reader.Get`: route to the owning shard, then the point lookup. -/
def getM (m : MReader) (key : List Nat) : GetRes :=
  match bucket fnvHash key m.expC with
  | none => .panic
  | some b =>
    if h : b < m.rs.length then .ok (cdbGet (m.rs.get ⟨b, h⟩) key) else .panic

/-- How `Writer.Put` can fail.  `panicIdx` and `negShift` model Go runtime
panics; `tooMuchData` is the engine's capacity signal; `readFail` wraps the
`read %q: ...` error of the growth path's reopen; `putFail` wraps the
`put %q: ...` error of re-inserting the triggering record. -/
inductive PErr
  | tooMuchData
  | panicIdx
  | negShift
  | readFail (e : RdErr)
  | putFail (e : PErr)
deriving Repr, DecidableEq

/-- A put's outcome: the new writer, or an error together with the directory
contents at the moment of failure. -/
abbrev PutRes := Except (PErr × Dir) MWriter

def recSize (r : Rec) : Nat := r.1.length + r.2.length

def shardSize (recs : List Rec) : Nat := (recs.map recSize).sum

/-- A sequence of puts through `p`, stopping at the first failure (the
re-insertion loop of the growth path, and any caller-side loop of puts). -/
def putSeq (p : MWriter → List Nat → List Nat → Option PutRes) :
    MWriter → List Rec → Option PutRes
  | m, [] => some (.ok m)
  | m, (k, v) :: rest =>
    match p m k v with
    | some (.ok m') => putSeq p m' rest
    | other => other

/-- The body of `Writer.Put`.  Direct path: route, check the capacity,
append.  Growth path: reopen the directory, build a doubled writer,
re-insert the failing record and then every old record, remove the old
files, swap.  `recur` stands for the recursive `Put` of the growth path
(`putM` below bounds it with fuel). -/
def putStep (cap : Nat) (recur : MWriter → List Nat → List Nat → Option PutRes)
    (m : MWriter) (key val : List Nat) : Option PutRes :=
  match bucket fnvHash key m.expC with
  | none => some (.error (.negShift, m.dir))
  | some b =>
    if hb : b < m.ws.length then
      let nm := m.ws.get ⟨b, hb⟩
      let recs := dirGet m.dir nm
      if shardSize recs + recSize (key, val) ≤ cap then
        some (.ok { m with dir := dirSet m.dir nm (recs ++ [(key, val)]) })
      else if m.canGrow = false then some (.error (.tooMuchData, m.dir))
      else
        match newReaderDir m.dir with
        | .error e => some (.error (.readFail e, m.dir))
        | .ok r =>
          let m2 := { newMWriter m.dir (2 * (m.ws.length : Int)) with canGrow := true }
          match recur m2 key val with
          | none => none
          | some (.error (e, d)) => some (.error (.putFail e, d))
          | some (.ok m2b) =>
            match putSeq recur m2b (readerSeq r) with
            | none => none
            | some (.error (e, d)) => some (.error (e, d))
            | some (.ok m2c) =>
              some (.ok { m2c with dir := m.ws.foldl dirRemove m2c.dir })
    else some (.error (.panicIdx, m.dir))

/-- `Writer.Put` with growth-recursion fuel (`none` = fuel exhausted; the Go
code recurses unboundedly). -/
def putM (cap : Nat) : Nat → MWriter → List Nat → List Nat → Option PutRes
  | 0, m, key, val => putStep cap (fun _ _ _ => none) m key val
  | fuel + 1, m, key, val => putStep cap (fun m2 k2 v2 => putM cap fuel m2 k2 v2) m key val
termination_by structural fuel _ _ _ => fuel

/-- The caller-side loop of puts. -/
def putList (cap fuel : Nat) (m : MWriter) (rs : List Rec) : Option PutRes :=
  putSeq (putM cap fuel) m rs

/-- The writer's full contents: every shard's records, in shard order. -/
def contentsW (m : MWriter) : List Rec := (m.ws.map (dirGet m.dir)).flatten

/-- The `+<klen>,<vlen>:` header `dump` prints for a record. -/
def encHeader (k v : List Nat) : List Nat :=
  43 :: ((decChars k.length).map Char.toNat ++
    44 :: ((decChars v.length).map Char.toNat ++ [58]))

/-- One record in cdbmake format: `+<klen>,<vlen>:<key>-><val>\n`. -/
def encodeRec (r : Rec) : List Nat :=
  encHeader r.1 r.2 ++ r.1 ++ [45, 62] ++ r.2 ++ [10]

/-- `Reader.Dump`: every record of the full iteration, encoded. -/
def mDump (r : MReader) : List Nat := ((readerSeq r).map encodeRec).flatten

/-- A decoding failure of `load`.  `eof` is the normal-termination signal
(including the `io.ErrUnexpectedEOF` → `io.EOF` conversion in the header
scan, and `io.EOF` from a read that got zero bytes); `unexpectedEof` is a
read cut short after at least one byte; `scanFmt` is a header mismatch;
`badSep`/`badTerm` are the descriptive separator/terminator errors. -/
inductive LdErr
  | eof
  | unexpectedEof
  | scanFmt
  | badSep (a b : Nat)
  | badTerm (b : Nat)
deriving Repr, DecidableEq

/-- One digit for `Fscanf`'s `%d` over bytes. -/
def byteDecDigit (b : Nat) : Option Nat :=
  if 48 ≤ b ∧ b ≤ 57 then some (b - 48) else none

/-- `fmt.Fscanf(br, "+%d,%d:", &keyLen, &valLen)`, with `load`'s conversion
of `io.ErrUnexpectedEOF` to `io.EOF` applied. -/
def scanHeader : List Nat → Except LdErr (Nat × Nat × List Nat)
  | [] => .error .eof
  | c :: r =>
    if c = 43 then
      match parseNum byteDecDigit 10 r with
      | none => if r = [] then .error .eof else .error .scanFmt
      | some (kl, r2) =>
        match r2 with
        | [] => .error .eof
        | c2 :: r3 =>
          if c2 = 44 then
            match parseNum byteDecDigit 10 r3 with
            | none => if r3 = [] then .error .eof else .error .scanFmt
            | some (vl, r4) =>
              match r4 with
              | [] => .error .eof
              | c3 :: r5 =>
                if c3 = 58 then .ok (kl, vl, r5) else .error .scanFmt
          else .error .scanFmt
    else .error .scanFmt

/-- `io.ReadFull` into a buffer of `n` bytes: `io.EOF` when nothing was
available (and `n > 0`), `io.ErrUnexpectedEOF` when cut short after at least
one byte. -/
def readFull (n : Nat) (bs : List Nat) : Except LdErr (List Nat × List Nat) :=
  if n ≤ bs.length then .ok (bs.take n, bs.drop n)
  else if bs.length = 0 then .error .eof
  else .error .unexpectedEof

/-- `load`: one record of the canonical format — header, key bytes, the
literal `->`, value bytes, the `\n` terminator. -/
def loadRec (bs : List Nat) : Except LdErr (Rec × List Nat) :=
  match scanHeader bs with
  | .error e => .error e
  | .ok (kl, vl, r) =>
    match readFull kl r with
    | .error e => .error e
    | .ok (key, r2) =>
      match readFull 2 r2 with
      | .error e => .error e
      | .ok (ab, r3) =>
        let a := ab.headD 0
        let b := (ab.drop 1).headD 0
        if a = 45 ∧ b = 62 then
          match readFull vl r3 with
          | .error e => .error e
          | .ok (val, r4) =>
            match r4 with
            | [] => .error .eof
            | t :: r5 => if t = 10 then .ok ((key, val), r5) else .error (.badTerm t)
        else .error (.badSep a b)

/-- How `Writer.Load` fails: a decode error other than clean EOF, or a
failing put. -/
inductive LoadFail
  | decodeErr (e : LdErr)
  | putErr (e : PErr)
deriving Repr, DecidableEq

/-- `Writer.Load`: decode records and put each, until clean EOF.  `lfuel`
bounds the loop (`none` = exhausted); `pfuel` is `putM`'s growth fuel. -/
def mLoad (cap pfuel : Nat) : Nat → MWriter → List Nat → Option (Except LoadFail MWriter)
  | 0, _, _ => none
  | lfuel + 1, m, bs =>
    match loadRec bs with
    | .error .eof => some (.ok m)
    | .error e => some (.error (.decodeErr e))
    | .ok ((k, v), rest) =>
      match putM cap pfuel m k v with
      | none => none
      | some (.error (e, _)) => some (.error (.putErr e))
      | some (.ok m') => mLoad cap pfuel lfuel m' rest

/-! Proof-side abbreviations for the canonical on-disk shape of a writer
generation: `2^k` shards named `mkName (2^k) i (k+1)`. -/

/-- The shard file names of generation `k`, in index order. -/
def genNames (k : Nat) : List FName :=
  (List.range (2 ^ k)).map (fun i => mkName (2 ^ k) i (k + 1))

/-- The directory of generation `k` whose shard `i` holds `recs i`. -/
def genDir (k : Nat) (recs : Nat → List Rec) : Dir :=
  (List.range (2 ^ k)).map (fun i => (mkName (2 ^ k) i (k + 1), recs i))

/-- The canonical writer of generation `k`, contents `recs`, growth flag `g`. -/
def genW (k : Nat) (recs : Nat → List Rec) (g : Bool) : MWriter :=
  { dir := genDir k recs, ws := genNames k, expC := 32 - (k : Int), canGrow := g }

/-- All records of generation `k`, shard-major. -/
def genContents (k : Nat) (recs : Nat → List Rec) : List Rec :=
  ((List.range (2 ^ k)).map recs).flatten

/-- The records of `puts` routed to shard `i` at generation `k`, in order. -/
def bucketFilter (k : Nat) (puts : List Rec) (i : Nat) : List Rec :=
  puts.filter (fun rec => decide (bucket fnvHash rec.1 (32 - (k : Int)) = some i))

end Mcdb

namespace Mcdb

/-! ### Arithmetic facts about the doubling loop -/

/-- With gas at least `n - n2`, `growLoop` returns the first doubling of
`n2` that reaches `n`, with the exponent decremented once per doubling. -/
theorem growLoop_eq (gas : Nat) : ∀ (n n2 : Nat) (e : Int), 0 < n2 → n ≤ n2 + gas →
    ∃ d : Nat, growLoop gas n n2 e = (n2 * 2 ^ d, e - d) ∧ n ≤ n2 * 2 ^ d ∧
      (d = 0 ∨ n2 * 2 ^ (d - 1) < n) := by
  induction gas with
  | zero =>
    intro n n2 e h2 hf
    exact ⟨0, by simp [growLoop], by simpa using hf, Or.inl rfl⟩
  | succ gas ih =>
    intro n n2 e h2 hf
    rw [growLoop]
    split
    · rename_i hlt
      obtain ⟨d, hd, hle, hmin⟩ := ih n (2 * n2) (e - 1) (by omega) (by omega)
      refine ⟨d + 1, ?_, ?_, ?_⟩
      · rw [hd]
        refine Prod.ext ?_ ?_
        · show 2 * n2 * 2 ^ d = n2 * 2 ^ (d + 1)
          ring
        · show e - 1 - (d : Int) = e - ((d : Nat) + 1 : Nat)
          push_cast
          ring
      · have heq : 2 * n2 * 2 ^ d = n2 * 2 ^ (d + 1) := by ring
        omega
      · right
        match d, hmin with
        | 0, _ => simpa using hlt
        | c + 1, hmin =>
          rcases hmin with h0 | hlt2
          · omega
          · have he : n2 * 2 ^ (c + 1 + 1 - 1) = 2 * n2 * 2 ^ (c + 1 - 1) := by
              simp only [Nat.add_sub_cancel]
              ring
            omega
    · exact ⟨0, by simp, by omega, Or.inl rfl⟩

/-- The parameters of a writer: count `2^k`, exponent `32 - k`, with `2^k`
the least power of two reaching the requested count. -/
theorem writerParams_spec (n : Int) :
    ∃ k : Nat, writerParams n = (decide (n ≤ 0), 2 ^ k, 32 - (k : Int)) ∧
      (if n = 0 then 2 else n.natAbs) ≤ 2 ^ k ∧
      (k = 0 ∨ 2 ^ (k - 1) < (if n = 0 then 2 else n.natAbs)) := by
  obtain ⟨d, hd, hle, hmin⟩ := growLoop_eq (if n = 0 then 2 else n.natAbs)
    (if n = 0 then 2 else n.natAbs) 1 32 (by omega) (by omega)
  refine ⟨d, ?_, by simpa using hle, by simpa using hmin⟩
  simp only [writerParams]
  rw [hd]
  simp

/-- On an exact power of two the loop stops at that power. -/
theorem growLoop_pow2 (j : Nat) (gas : Nat) (hgas : 2 ^ j ≤ 1 + gas) :
    growLoop gas (2 ^ j) 1 32 = (2 ^ j, 32 - (j : Int)) := by
  obtain ⟨d, hd, hle, hmin⟩ := growLoop_eq gas (2 ^ j) 1 32 (by omega) (by omega)
  simp only [one_mul] at hd hle hmin
  have hdj : d = j := by
    rcases hmin with h0 | hlt
    · subst h0
      have hj0 : j = 0 := by
        by_contra hj
        have h21 : 2 ^ 1 ≤ 2 ^ j := Nat.pow_le_pow_right (by omega) (by omega)
        simp at hle
        omega
      omega
    · have h1 : d - 1 < j := (Nat.pow_lt_pow_iff_right (by omega)).mp hlt
      have h2 : j ≤ d := (Nat.pow_le_pow_iff_right (by omega)).mp hle
      omega
  subst hdj
  exact hd

theorem expOf_pow2 (k : Nat) : expOf (2 ^ k) = 32 - (k : Int) := by
  simp [expOf, growLoop_pow2 k (2 ^ k) (by omega)]

/-- `writerParams` at a positive power of two. -/
theorem writerParams_pow2 (k : Nat) :
    writerParams ((2 ^ k : Nat) : Int) = (false, 2 ^ k, 32 - (k : Int)) := by
  have hpos : ¬ ((2 ^ k : Nat) : Int) = 0 := by positivity
  have hk : (0 : Nat) < 2 ^ k := by positivity
  simp only [writerParams, if_neg hpos]
  have habs : (((2 ^ k : Nat) : Int)).natAbs = 2 ^ k := Int.natAbs_ofNat _
  rw [habs, growLoop_pow2 k (2 ^ k) (by omega)]
  have hdec : decide (((2 ^ k : Nat) : Int) ≤ 0) = false := by
    rw [decide_eq_false_iff_not]
    have hcast : (0 : Int) < ((2 ^ k : Nat) : Int) := by exact_mod_cast hk
    omega
  rw [hdec]

/-! ### Digit rendering and parsing round-trips -/

theorem parseRun_stop (digitOf : α → Option Nat) (base : Nat) (rest : List α) (acc : Nat)
    (h : rest = [] ∨ ∃ c cs, rest = c :: cs ∧ digitOf c = none) :
    parseRun digitOf base rest acc = (acc, rest) := by
  rcases h with rfl | ⟨c, cs, rfl, hc⟩
  · rfl
  · simp [parseRun, hc]

theorem parseRun_digits (digitOf : α → Option Nat) (base : Nat) (enc : Nat → α)
    (ds : List Nat) (hds : ∀ d ∈ ds, digitOf (enc d) = some d) (rest : List α) (acc : Nat) :
    parseRun digitOf base (ds.map enc ++ rest) acc =
      parseRun digitOf base rest (ds.foldl (fun a d => base * a + d) acc) := by
  induction ds generalizing acc with
  | nil => simp
  | cons d ds ih =>
    simp only [List.map_cons, List.cons_append, parseRun, hds d (by simp)]
    simp only [List.append_eq]
    rw [ih (fun x hx => hds x (by simp [hx]))]
    simp

theorem foldl_digits_val (base : Nat) (ds : List Nat) (acc : Nat) :
    ds.foldl (fun a d => base * a + d) acc =
      acc * base ^ ds.length + Nat.ofDigits base ds.reverse := by
  induction ds generalizing acc with
  | nil => simp [Nat.ofDigits]
  | cons d ds ih =>
    simp only [List.foldl_cons, List.reverse_cons, List.length_cons]
    rw [ih, Nat.ofDigits_append]
    simp [Nat.ofDigits, pow_succ]
    ring

/-- A nonempty valid digit list followed by a non-digit parses back to its
base-`base` value. -/
theorem parseNum_digits (digitOf : α → Option Nat) (base : Nat) (enc : Nat → α)
    (ds : List Nat) (hne : ds ≠ []) (hds : ∀ d ∈ ds, digitOf (enc d) = some d)
    (rest : List α) (hrest : rest = [] ∨ ∃ c cs, rest = c :: cs ∧ digitOf c = none) :
    parseNum digitOf base (ds.map enc ++ rest) =
      some (Nat.ofDigits base ds.reverse, rest) := by
  match ds with
  | [] => exact absurd rfl hne
  | d :: ds =>
    simp only [List.map_cons, List.cons_append, parseNum, hds d (by simp)]
    rw [parseRun_digits digitOf base enc ds (fun x hx => hds x (by simp [hx])) rest d,
      parseRun_stop digitOf base rest _ hrest]
    rw [foldl_digits_val]
    have hofd : Nat.ofDigits base (ds.reverse ++ [d]) =
        Nat.ofDigits base ds.reverse + base ^ ds.reverse.length * d := by
      rw [Nat.ofDigits_append]
      simp [Nat.ofDigits]
    simp [hofd]
    ring_nf


theorem decDigit_enc (d : Nat) (hd : d < 10) : decDigit (Char.ofNat (48 + d)) = some d := by
  interval_cases d <;> decide

theorem binDigit_enc (d : Nat) (hd : d < 2) : binDigit (Char.ofNat (48 + d)) = some d := by
  interval_cases d <;> decide

theorem byteDecDigit_enc (d : Nat) (hd : d < 10) : byteDecDigit (48 + d) = some d := by
  simp only [byteDecDigit]
  rw [if_pos (by omega)]
  simp

/-- The fueled digit extractor agrees with `Nat.digits` whenever the gas
covers the number. -/
theorem digitsF_eq (b : Nat) (hb : 2 ≤ b) :
    ∀ gas n, n ≤ gas → digitsF b gas n = Nat.digits b n := by
  intro gas
  induction gas with
  | zero =>
    intro n hn
    interval_cases n
    simp [digitsF]
  | succ gas ih =>
    intro n hn
    match n with
    | 0 => simp [digitsF]
    | n + 1 =>
      have hdiv : (n + 1) / b < n + 1 := Nat.div_lt_self (by omega) (by omega)
      rw [Nat.digits_def' (b := b) (by omega) (by omega)]
      simp only [digitsF]
      rw [ih ((n + 1) / b) (by omega)]

theorem ofDigits_replicate_zero (base z : Nat) :
    Nat.ofDigits base (List.replicate z 0) = 0 := by
  induction z with
  | zero => simp [Nat.ofDigits]
  | succ z ih => simp [List.replicate, Nat.ofDigits_cons, ih]

/-- `decChars n` is the image of a canonical digit list. -/
theorem decChars_digits (n : Nat) :
    ∃ ds : List Nat, decChars n = ds.map (fun d => Char.ofNat (48 + d)) ∧ ds ≠ [] ∧
      (∀ d ∈ ds, d < 10) ∧ Nat.ofDigits 10 ds.reverse = n := by
  by_cases h0 : n = 0
  · subst h0
    exact ⟨[0], by decide, by simp, by simp, by simp [Nat.ofDigits]⟩
  · refine ⟨(Nat.digits 10 n).reverse, ?_, ?_, ?_, ?_⟩
    · simp [decChars, h0, List.map_reverse, digitsF_eq 10 (by omega) n n le_rfl]
    · simp [Nat.digits_ne_nil_iff_ne_zero, h0]
    · intro d hd
      exact Nat.digits_lt_base (by omega) (List.mem_reverse.mp hd)
    · simp [Nat.ofDigits_digits]

/-- `binPad i w` is the image of a canonical (possibly zero-padded) digit list. -/
theorem binPad_digits (i w : Nat) :
    ∃ ds : List Nat, binPad i w = ds.map (fun d => Char.ofNat (48 + d)) ∧ ds ≠ [] ∧
      (∀ d ∈ ds, d < 2) ∧ Nat.ofDigits 2 ds.reverse = i := by
  have hchars : ∃ bs : List Nat, binChars i = bs.map (fun d => Char.ofNat (48 + d)) ∧ bs ≠ [] ∧
      (∀ d ∈ bs, d < 2) ∧ Nat.ofDigits 2 bs.reverse = i := by
    by_cases h0 : i = 0
    · subst h0
      exact ⟨[0], by decide, by simp, by simp, by simp [Nat.ofDigits]⟩
    · refine ⟨(Nat.digits 2 i).reverse, ?_, ?_, ?_, ?_⟩
      · simp [binChars, h0, List.map_reverse, digitsF_eq 2 le_rfl i i le_rfl]
      · simp [Nat.digits_ne_nil_iff_ne_zero, h0]
      · intro d hd
        exact Nat.digits_lt_base (by omega) (List.mem_reverse.mp hd)
      · simp [Nat.ofDigits_digits]
  obtain ⟨bs, hbs, hne, hlt, hval⟩ := hchars
  refine ⟨List.replicate (w - (binChars i).length) 0 ++ bs, ?_, by simp [hne], ?_, ?_⟩
  · simp only [binPad, hbs, List.map_append, List.map_replicate]
  · intro d hd
    rcases List.mem_append.mp hd with h | h
    · simp [List.eq_of_mem_replicate h]
    · exact hlt d h
  · rw [List.reverse_append, Nat.ofDigits_append, hval, List.reverse_replicate,
      ofDigits_replicate_zero]
    simp

/-- `%d` applied to a printed decimal reads the number back. -/
theorem parseNum_decChars (n : Nat) (rest : List Char)
    (hrest : rest = [] ∨ ∃ c cs, rest = c :: cs ∧ decDigit c = none) :
    parseNum decDigit 10 (decChars n ++ rest) = some (n, rest) := by
  obtain ⟨ds, hmap, hne, hlt, hval⟩ := decChars_digits n
  rw [hmap, parseNum_digits decDigit 10 _ ds hne
    (fun d hd => decDigit_enc d (hlt d hd)) rest hrest, hval]

/-- `%b` applied to a zero-padded printed binary reads the number back. -/
theorem parseNum_binPad (i w : Nat) (rest : List Char)
    (hrest : rest = [] ∨ ∃ c cs, rest = c :: cs ∧ binDigit c = none) :
    parseNum binDigit 2 (binPad i w ++ rest) = some (i, rest) := by
  obtain ⟨ds, hmap, hne, hlt, hval⟩ := binPad_digits i w
  rw [hmap, parseNum_digits binDigit 2 _ ds hne
    (fun d hd => binDigit_enc d (hlt d hd)) rest hrest, hval]

/-- The byte-level version for the dump header digits. -/
theorem parseNum_decBytes (n : Nat) (rest : List Nat)
    (hrest : rest = [] ∨ ∃ c cs, rest = c :: cs ∧ byteDecDigit c = none) :
    parseNum byteDecDigit 10 ((decChars n).map Char.toNat ++ rest) = some (n, rest) := by
  obtain ⟨ds, hmap, hne, hlt, hval⟩ := decChars_digits n
  have hmap2 : (decChars n).map Char.toNat = ds.map (fun d => 48 + d) := by
    rw [hmap, List.map_map]
    refine List.map_congr_left ?_
    intro d hd
    have hd10 : d < 10 := hlt d hd
    show (Char.ofNat (48 + d)).toNat = 48 + d
    interval_cases d <;> decide
  rw [hmap2, parseNum_digits byteDecDigit 10 _ ds hne
    (fun d hd => byteDecDigit_enc d (hlt d hd)) rest hrest, hval]


/-! ### Hash bound and bucket range -/

theorem fnvHash_lt (p : List Nat) : fnvHash p < 4294967296 := by
  have hfold : ∀ (l : List Nat) (a : Nat), a < 2 ^ 32 →
      l.foldl (fun h b => Nat.xor (h * 16777619 % 4294967296) (b % 256)) a < 2 ^ 32 := by
    intro l
    induction l with
    | nil => intro a ha; simpa using ha
    | cons b t ih =>
      intro a ha
      apply ih
      apply Nat.xor_lt_two_pow
      · have h32 : (4294967296 : Nat) = 2 ^ 32 := by norm_num
        rw [← h32]
        exact Nat.mod_lt _ (by norm_num)
      · calc b % 256 < 256 := Nat.mod_lt _ (by norm_num)
          _ ≤ 2 ^ 32 := by norm_num
  have h := hfold p 2166136261 (by norm_num)
  have h32 : (2 : Nat) ^ 32 = 4294967296 := by norm_num
  rw [h32] at h
  simpa [fnvHash] using h

/-- At exponent `32 - k` (`k ≤ 32`) the bucket is defined and below `2^k`. -/
theorem bucket_lt (key : List Nat) (k : Nat) (hk : k ≤ 32) :
    ∃ b, bucket fnvHash key (32 - (k : Int)) = some b ∧ b < 2 ^ k := by
  by_cases hk0 : k = 0
  · subst hk0
    exact ⟨0, by simp [bucket], by norm_num⟩
  · have hne : ¬ ((32 : Int) - (k : Int) = 32) := by omega
    have hnn : ¬ ((32 : Int) - (k : Int) < 0) := by omega
    refine ⟨fnvHash key / 2 ^ ((32 : Int) - (k : Int)).toNat, by simp [bucket, hne, hnn], ?_⟩
    have ht : ((32 : Int) - (k : Int)).toNat = 32 - k := by omega
    rw [ht]
    apply Nat.div_lt_of_lt_mul
    calc fnvHash key < 4294967296 := fnvHash_lt key
      _ = 2 ^ 32 := by norm_num
      _ = 2 ^ (32 - k) * 2 ^ k := by
          rw [← pow_add]
          congr 1
          omega

/-! ### Shard file names: construction and parsing agree -/

theorem stripLit_self_append (p s : FName) : stripLit p (p ++ s) = some s := by
  have hp : p.isPrefixOf (p ++ s) = true := by
    rw [List.isPrefixOf_iff_prefix]
    exact List.prefix_append p s
  simp [stripLit, hp]

theorem parseNameV1_mkName (total i w : Nat) :
    parseNameV1 (mkName total i w) = some (1, total, i) := by
  have hsplit : mkName total i w =
      pfxMcdbV ++ ('1' :: '-' :: (decChars total ++ (',' :: (binPad i w ++ sfxCdb)))) := by
    simp [mkName, pfxMcdbV, sfxCdb]
  rw [hsplit]
  simp only [parseNameV1, stripLit_self_append, Option.bind_eq_bind, Option.some_bind]
  have h1 : parseNum decDigit 10 ('1' :: '-' :: (decChars total ++ (',' :: (binPad i w ++ sfxCdb)))) =
      some (1, '-' :: (decChars total ++ (',' :: (binPad i w ++ sfxCdb)))) := by
    have hd1 : decDigit '1' = some 1 := by decide
    have hdm : decDigit '-' = none := by decide
    simp [parseNum, parseRun, hd1, hdm]
  rw [h1]
  simp only [Option.some_bind]
  rw [parseNum_decChars total _ (Or.inr ⟨',', _, rfl, by decide⟩)]
  simp only [Option.some_bind]
  have h2 : parseNum binDigit 2 (binPad i w ++ sfxCdb) = some (i, sfxCdb) := by
    refine parseNum_binPad i w sfxCdb (Or.inr ⟨'.', "cdb".toList, by decide, by decide⟩)
  rw [h2]
  simp only [Option.some_bind]
  have h3 : stripLit sfxCdb sfxCdb = some [] := by
    have h4 := stripLit_self_append sfxCdb []
    simpa using h4
  rw [h3]
  rfl

theorem matchesPat_mkName (total i w : Nat) : matchesPat (mkName total i w) = true := by
  have hpfx : pfxMcdb.isPrefixOf (mkName total i w) = true := by
    rw [List.isPrefixOf_iff_prefix]
    refine ⟨"v1-".toList ++ decChars total ++ [','] ++ binPad i w ++ ".cdb".toList, ?_⟩
    simp [mkName, pfxMcdb]
  have hsfx : sfxCdb.isSuffixOf (mkName total i w) = true := by
    rw [List.isSuffixOf_iff_suffix]
    exact ⟨"mcdb-v1-".toList ++ decChars total ++ [','] ++ binPad i w, by simp [mkName, sfxCdb]⟩
  simp [matchesPat, hpfx, hsfx]

theorem pfxV_mkName (total i w : Nat) : pfxMcdbV.isPrefixOf (mkName total i w) = true := by
  rw [List.isPrefixOf_iff_prefix]
  refine ⟨"1-".toList ++ decChars total ++ [','] ++ binPad i w ++ ".cdb".toList, ?_⟩
  simp [mkName, pfxMcdbV]

theorem parseEntry_mkName (total i w : Nat) :
    parseEntry (mkName total i w) = some (1, total, i) := by
  simp [parseEntry, pfxV_mkName, parseNameV1_mkName]

/-- Equal names force equal indices (same total and width). -/
theorem mkName_inj_idx (total w : Nat) (i j : Nat) (h : mkName total i w = mkName total j w) :
    i = j := by
  have h1 := parseNameV1_mkName total i w
  have h2 := parseNameV1_mkName total j w
  rw [h] at h1
  rw [h1] at h2
  cases h2
  rfl

/-- Equal names force equal totals. -/
theorem mkName_inj_total (t1 i1 w1 t2 i2 w2 : Nat) (h : mkName t1 i1 w1 = mkName t2 i2 w2) :
    t1 = t2 := by
  have h1 := parseNameV1_mkName t1 i1 w1
  have h2 := parseNameV1_mkName t2 i2 w2
  rw [h] at h1
  rw [h1] at h2
  cases h2
  rfl


/-! ### The directory scan on a complete, well-formed shard set -/

theorem scanStep_skip (st : ScanSt) (f : FName × List Rec) (h : matchesPat f.1 = false) :
    scanStep st f = .ok st := by
  simp [scanStep, h]

theorem scanStep_wf_cont (e : Int) (L i w : Nat) (sl : List (Option (List Rec)))
    (hL : sl.length = L) (hi : i < L) (recs : List Rec) :
    scanStep ⟨some sl, e, 1⟩ (mkName L i w, recs) =
      .ok ⟨some (sl.set i (some recs)), e, 1⟩ := by
  have hm : matchesPat (mkName L i w) = true := matchesPat_mkName L i w
  have h1 : ¬ (L < i) := by omega
  have h2 : i < L := hi
  simp [scanStep, hm, parseEntry_mkName, scanPlace, hL, h1, h2]

theorem scanStep_wf_first (L i w : Nat) (hi : i < L) (recs : List Rec) :
    scanStep initScan (mkName L i w, recs) =
      .ok ⟨some ((List.replicate L none).set i (some recs)), expOf L, 1⟩ := by
  have hm : matchesPat (mkName L i w) = true := matchesPat_mkName L i w
  have h1 : ¬ (L < i) := by omega
  have h2 : i < L := hi
  simp [initScan, scanStep, hm, parseEntry_mkName, scanPlace, h1, h2]

theorem scanAll_idxs (e : Int) (L w : Nat) (recs : Nat → List Rec) (ps : List Nat)
    (hps : ∀ i ∈ ps, i < L) (sl : List (Option (List Rec))) (hL : sl.length = L) :
    scanAll ⟨some sl, e, 1⟩ (ps.map (fun i => (mkName L i w, recs i))) =
      .ok ⟨some (ps.foldl (fun acc i => acc.set i (some (recs i))) sl), e, 1⟩ := by
  induction ps generalizing sl with
  | nil => simp [scanAll]
  | cons p ps ih =>
    simp only [List.map_cons, scanAll, List.foldl_cons]
    rw [scanStep_wf_cont e L p w sl hL (hps p (by simp)) (recs p)]
    exact ih (fun i hi => hps i (by simp [hi])) _ (by simp [hL])

theorem foldl_set_length (ps : List Nat) (recs : Nat → List Rec) (sl : List (Option (List Rec))) :
    (ps.foldl (fun acc i => acc.set i (some (recs i))) sl).length = sl.length := by
  induction ps generalizing sl with
  | nil => rfl
  | cons p ps ih => simp [List.foldl_cons, ih]

theorem foldl_set_getElem_mem (ps : List Nat) (recs : Nat → List Rec)
    (sl : List (Option (List Rec))) (j : Nat) (hj : j < sl.length) (hmem : j ∈ ps) :
    (ps.foldl (fun acc i => acc.set i (some (recs i))) sl)[j]? = some (some (recs j)) := by
  induction ps generalizing sl with
  | nil => simp at hmem
  | cons p ps ih =>
    simp only [List.foldl_cons]
    by_cases hjp : j ∈ ps
    · exact ih _ (by simp [hj]) hjp
    · have hpj : p = j := by
        rcases List.mem_cons.mp hmem with h | h
        · omega
        · exact absurd h hjp
      subst hpj
      have hnotin : ∀ (qs : List Nat) (sl' : List (Option (List Rec))),
          p ∉ qs → sl'[p]? = some (some (recs p)) →
          (qs.foldl (fun acc i => acc.set i (some (recs i))) sl')[p]? = some (some (recs p)) := by
        intro qs
        induction qs with
        | nil => intro sl' _ h; simpa using h
        | cons q qs ihq =>
          intro sl' hq h
          simp only [List.foldl_cons]
          refine ihq _ (fun hmem2 => hq (by simp [hmem2])) ?_
          rw [List.getElem?_set]
          have hqp : ¬ q = p := fun hqp => hq (by simp [hqp])
          simp [hqp, h]
      apply hnotin ps _ hjp
      rw [List.getElem?_set]
      simp [hj]

theorem firstNoneIdx_eq_none (sl : List (Option (List Rec))) (h : ∀ o ∈ sl, o ≠ none) :
    ∀ n, firstNoneIdx sl n = none := by
  induction sl with
  | nil => intro n; rfl
  | cons o rest ih =>
    intro n
    match o with
    | none => exact absurd rfl (h none (by simp))
    | some r => exact ih (fun x hx => h x (by simp [hx])) (n + 1)

theorem exists_idx_list (l : Dir) (L w : Nat) (recs : Nat → List Rec)
    (h : ∀ f ∈ l, ∃ i, i < L ∧ f = (mkName L i w, recs i)) :
    ∃ ps : List Nat, (∀ i ∈ ps, i < L) ∧ l = ps.map (fun i => (mkName L i w, recs i)) := by
  induction l with
  | nil => exact ⟨[], by simp, rfl⟩
  | cons f rest ih =>
    obtain ⟨ps, hps, hrest⟩ := ih (fun g hg => h g (by simp [hg]))
    obtain ⟨i, hi, hf⟩ := h f (by simp)
    refine ⟨i :: ps, ?_, by simp [hf, hrest]⟩
    intro j hj
    rcases List.mem_cons.mp hj with rfl | hj
    · exact hi
    · exact hps j hj

/-- Opening a directory that is (up to order) exactly the complete v1 shard
set `{(mkName L i w, recs i) | i < L}` succeeds, reconstructing every shard
in index order, with exponent `expOf L` and version 1. -/
theorem newReaderDir_complete (L w : Nat) (hL : 0 < L) (recs : Nat → List Rec)
    (files : Dir)
    (hfiles : files.Perm ((List.range L).map (fun i => (mkName L i w, recs i)))) :
    newReaderDir files = .ok ⟨(List.range L).map recs, expOf L, 1⟩ := by
  have hsorted : (sortDir files).Perm ((List.range L).map (fun i => (mkName L i w, recs i))) :=
    (List.perm_insertionSort fileLe files).trans hfiles
  obtain ⟨ps, hps, hform⟩ := exists_idx_list (sortDir files) L w recs (by
    intro f hf
    have hmem : f ∈ (List.range L).map (fun i => (mkName L i w, recs i)) :=
      hsorted.mem_iff.mp hf
    obtain ⟨i, hi, hfi⟩ := List.mem_map.mp hmem
    exact ⟨i, List.mem_range.mp hi, hfi.symm⟩)
  have hperm : ps.Perm (List.range L) := by
    have hinj : Function.Injective (fun i => (mkName L i w, recs i)) := by
      intro a b hab
      exact mkName_inj_idx L w a b (congrArg Prod.fst hab)
    have h1 : (ps.map (fun i => (mkName L i w, recs i))).Perm
        ((List.range L).map (fun i => (mkName L i w, recs i))) := by
      rw [← hform]
      exact hsorted
    have h2 : Multiset.map (fun i => (mkName L i w, recs i)) (↑ps) =
        Multiset.map (fun i => (mkName L i w, recs i)) (↑(List.range L)) := by
      rw [Multiset.map_coe, Multiset.map_coe]
      exact Multiset.coe_eq_coe.mpr h1
    exact Multiset.coe_eq_coe.mp (Multiset.map_injective hinj h2)
  match ps, hform, hperm with
  | [], hform, hperm =>
    have hnil : (List.range L) = [] := (hperm.symm).eq_nil
    rw [List.range_eq_nil] at hnil
    omega
  | p :: ps', hform, hperm =>
    have hps' : ∀ i ∈ p :: ps', i < L := by
      intro i hi
      exact List.mem_range.mp (hperm.mem_iff.mp hi)
    have hfin : scanAll initScan (sortDir files) =
        .ok ⟨some ((p :: ps').foldl (fun acc i => acc.set i (some (recs i)))
          (List.replicate L none)), expOf L, 1⟩ := by
      rw [hform]
      simp only [List.map_cons, scanAll, List.foldl_cons]
      rw [scanStep_wf_first L p w (hps' p (by simp)) (recs p)]
      exact scanAll_idxs (expOf L) L w recs ps' (fun i hi => hps' i (by simp [hi])) _
        (by simp)
    have hlen : ((p :: ps').foldl (fun acc i => acc.set i (some (recs i)))
        (List.replicate L none)).length = L := by
      rw [foldl_set_length]
      simp
    have hget : ∀ j, j < L →
        ((p :: ps').foldl (fun acc i => acc.set i (some (recs i)))
          (List.replicate L none))[j]? = some (some (recs j)) := by
      intro j hj
      apply foldl_set_getElem_mem
      · simpa using hj
      · exact hperm.mem_iff.mpr (List.mem_range.mpr hj)
    simp only [newReaderDir, hfin]
    rw [if_neg (by omega)]
    have hnone : firstNoneIdx ((p :: ps').foldl (fun acc i => acc.set i (some (recs i)))
        (List.replicate L none)) 0 = none := by
      apply firstNoneIdx_eq_none
      intro o ho
      obtain ⟨j, hj, hjo⟩ := List.getElem_of_mem ho
      have h5 : ((p :: ps').foldl (fun acc i => acc.set i (some (recs i)))
          (List.replicate L none))[j]? = some o := by
        rw [List.getElem?_eq_getElem hj, hjo]
      rw [hget j (by omega)] at h5
      intro hcon
      rw [hcon] at h5
      simp at h5
    rw [hnone]
    have hrs : (((p :: ps').foldl (fun acc i => acc.set i (some (recs i)))
        (List.replicate L none)).map (fun o => o.getD [])) = (List.range L).map recs := by
      apply List.ext_getElem?
      intro j
      rw [List.getElem?_map, List.getElem?_map]
      by_cases hj : j < L
      · rw [hget j hj, List.getElem?_range hj]
        simp
      · rw [List.getElem?_eq_none (by omega), List.getElem?_eq_none (by simp; omega)]
        simp
    rw [hrs]

/-! ### The merged iterator walks the shards in index order -/

/-- `advanceIt` results are sound: a strictly later in-range index pointing
at the found nonempty shard, with only empty shards in between. -/
theorem advanceIt_some_spec (rs : List (List Rec)) (gas : Nat) : ∀ (i j : Nat) (r : Rec)
    (rest : List Rec), advanceIt rs gas i = some (j, r, rest) →
    i < j ∧ ∃ hj : j < rs.length, rs.get ⟨j, hj⟩ = r :: rest ∧
      ∀ j' (hj' : j' < rs.length), i < j' → j' < j → rs.get ⟨j', hj'⟩ = [] := by
  induction gas with
  | zero =>
    intro i j r rest h
    simp [advanceIt] at h
  | succ gas ih =>
    intro i j r rest h
    rw [advanceIt] at h
    split at h
    · rename_i hlt
      split at h
      · rename_i hget
        obtain ⟨hij, hj, hgj, hmid⟩ := ih (i + 1) j r rest h
        refine ⟨by omega, hj, hgj, ?_⟩
        intro j' hj' h1 h2
        rcases Nat.lt_or_ge (i + 1) j' with hc | hc
        · exact hmid j' hj' hc h2
        · have hji : j' = i + 1 := by omega
          subst hji
          exact hget
      · rename_i a b hget
        simp only [Option.some.injEq] at h
        obtain ⟨h1, h2, h3⟩ : i + 1 = j ∧ a = r ∧ b = rest := by
          simpa [Prod.ext_iff] using h
        subst h1
        subst h2
        subst h3
        exact ⟨by omega, by omega, hget, fun j' hj' hx hy => by omega⟩
    · simp at h

/-- With enough gas, `advanceIt` returns `none` exactly when every later
shard is empty. -/
theorem advanceIt_none_iff (rs : List (List Rec)) (gas : Nat) :
    ∀ i, rs.length ≤ gas + i + 1 →
    (advanceIt rs gas i = none ↔ ∀ j (hj : j < rs.length), i < j → rs.get ⟨j, hj⟩ = []) := by
  induction gas with
  | zero =>
    intro i hgas
    constructor
    · intro _ j hj hij
      omega
    · intro _
      simp [advanceIt]
  | succ gas ih =>
    intro i hgas
    rw [advanceIt]
    split
    · rename_i hlt
      split
      · rename_i hget
        rw [ih (i + 1) (by omega)]
        constructor
        · intro hall j hj hij
          rcases Nat.lt_or_ge (i + 1) j with hc | hc
          · exact hall j hj hc
          · have hji : j = i + 1 := by omega
            subst hji
            exact hget
        · intro hall j hj hij
          exact hall j hj (by omega)
      · rename_i a b hget
        constructor
        · intro hcon
          simp at hcon
        · intro hall
          have hc := hall (i + 1) (by omega) (by omega)
          rw [hget] at hc
          simp at hc
    · rename_i hge
      constructor
      · intro _ j hj hij
        omega
      · intro _
        rfl

theorem flatten_drop_eq_of_empty (rs : List (List Rec)) (a b : Nat) (hab : a ≤ b)
    (hb : b ≤ rs.length)
    (hempty : ∀ j (hj : j < rs.length), a ≤ j → j < b → rs.get ⟨j, hj⟩ = []) :
    (rs.drop a).flatten = (rs.drop b).flatten := by
  rcases Nat.eq_or_lt_of_le hab with rfl | hlt
  · rfl
  · have ha : a < rs.length := by omega
    rw [List.drop_eq_getElem_cons ha]
    have hget : rs[a] = [] := hempty a ha (by omega) (by omega)
    rw [hget]
    simp only [List.flatten_cons, List.nil_append]
    exact flatten_drop_eq_of_empty rs (a + 1) b (by omega) hb
      (fun j hj h1 h2 => hempty j hj (by omega) h2)
termination_by b - a
decreasing_by omega

theorem dropSums_cons (rs : List (List Rec)) (t : Nat) (ht : t < rs.length) :
    ((rs.drop t).map List.length).sum =
      rs[t].length + ((rs.drop (t + 1)).map List.length).sum := by
  rw [List.drop_eq_getElem_cons ht]
  simp only [List.map_cons, List.sum_cons]

theorem dropSums_le (rs : List (List Rec)) (a b : Nat) (hab : a ≤ b) :
    ((rs.drop b).map List.length).sum ≤ ((rs.drop a).map List.length).sum := by
  induction b with
  | zero =>
    have ha : a = 0 := by omega
    subst ha
    exact le_refl _
  | succ b ih =>
    rcases Nat.eq_or_lt_of_le hab with rfl | hlt
    · exact le_refl _
    · have h1 : ((rs.drop (b + 1)).map List.length).sum ≤ ((rs.drop b).map List.length).sum := by
        by_cases hb : b < rs.length
        · rw [dropSums_cons rs b hb]
          omega
        · rw [List.drop_eq_nil_of_le (by omega), List.drop_eq_nil_of_le (by omega)]
      exact le_trans h1 (ih (by omega))

theorem sum_zero_flatten_nil (l : List (List Rec)) (h : (l.map List.length).sum = 0) :
    l.flatten = [] := by
  induction l with
  | nil => rfl
  | cons x t ih =>
    simp only [List.map_cons, List.sum_cons] at h
    have hx : x = [] := List.eq_nil_of_length_eq_zero (by omega)
    simp only [List.flatten_cons, hx, List.nil_append]
    exact ih (by omega)

/-- With enough gas, one full run of the cursor yields the rest of the
current shard followed by all later shards, in order. -/
theorem collectIt_eq (gas : Nat) : ∀ (s : ItSt),
    s.cur.length + ((s.rs.drop (s.i + 1)).map List.length).sum + (s.rs.length - s.i) ≤ gas →
    collectIt gas s = s.cur ++ (s.rs.drop (s.i + 1)).flatten := by
  induction gas with
  | zero =>
    intro s hgas
    have hcur : s.cur = [] := List.eq_nil_of_length_eq_zero (by omega)
    have hflat : (s.rs.drop (s.i + 1)).flatten = [] :=
      sum_zero_flatten_nil _ (by omega)
    simp [collectIt, hcur, hflat]
  | succ gas ih =>
    intro s hgas
    rw [collectIt]
    match hnext : itNext s with
    | none =>
      simp only []
      rw [itNext] at hnext
      match hcur : s.cur with
      | r :: rest =>
        rw [hcur] at hnext
        simp at hnext
      | [] =>
        rw [hcur] at hnext
        simp only [] at hnext
        match hadv : advanceIt s.rs s.rs.length s.i with
        | some x =>
          rw [hadv] at hnext
          simp at hnext
        | none =>
          have hall := (advanceIt_none_iff s.rs s.rs.length s.i (by omega)).mp hadv
          have hflat : (s.rs.drop (s.i + 1)).flatten = [] := by
            by_cases hle : s.i + 1 ≤ s.rs.length
            · rw [flatten_drop_eq_of_empty s.rs (s.i + 1) s.rs.length hle (by omega)
                (fun j hj h1 h2 => hall j hj (by omega))]
              simp
            · rw [List.drop_eq_nil_of_le (by omega)]
              rfl
          simp [hflat]
    | some (r, s') =>
      simp only []
      rw [itNext] at hnext
      match hcur : s.cur with
      | r0 :: rest =>
        rw [hcur] at hnext
        have hnext2 : some (r0, ({ s with cur := rest } : ItSt)) = some (r, s') := hnext
        injection hnext2 with hpair
        injection hpair with hr hs'
        subst hr
        subst hs'
        rw [ih { s with cur := rest } (by
          rw [hcur] at hgas
          simp only [List.length_cons] at hgas
          simpa using (by omega : rest.length +
            ((s.rs.drop (s.i + 1)).map List.length).sum + (s.rs.length - s.i) ≤ gas))]
        simp
      | [] =>
        rw [hcur] at hnext
        simp only [] at hnext
        match hadv : advanceIt s.rs s.rs.length s.i with
        | none =>
          rw [hadv] at hnext
          simp at hnext
        | some (j, r1, rest1) =>
          rw [hadv] at hnext
          have hnext2 : some (r1, ({ rs := s.rs, i := j, cur := rest1 } : ItSt)) =
              some (r, s') := hnext
          injection hnext2 with hpair
          injection hpair with hr hs'
          subst hr
          subst hs'
          obtain ⟨hij, hj, hgj, hmid⟩ := advanceIt_some_spec s.rs s.rs.length s.i j r1 rest1 hadv
          have hS1 : ((s.rs.drop (s.i + 1)).map List.length).sum ≥
              s.rs[j].length + ((s.rs.drop (j + 1)).map List.length).sum := by
            have hmono := dropSums_le s.rs (s.i + 1) j (by omega)
            have hcons := dropSums_cons s.rs j hj
            omega
          have hrsj : s.rs[j] = r1 :: rest1 := hgj
          have hbound : rest1.length + ((s.rs.drop (j + 1)).map List.length).sum +
              (s.rs.length - j) ≤ gas := by
            rw [hrsj] at hS1
            simp only [List.length_cons] at hS1
            rw [hcur] at hgas
            simp only [List.length_nil] at hgas
            omega
          rw [ih { rs := s.rs, i := j, cur := rest1 } (by simpa using hbound)]
          have hskip : (s.rs.drop (s.i + 1)).flatten = (s.rs.drop j).flatten := by
            apply flatten_drop_eq_of_empty s.rs (s.i + 1) j (by omega) (by omega)
            intro j' hj' h1 h2
            exact hmid j' hj' (by omega) h2
          simp only [hcur, List.nil_append]
          rw [hskip, List.drop_eq_getElem_cons hj, hrsj]
          simp

/-- The full iteration of a reader is exactly the concatenation of its
shards, shard-major. -/
theorem readerSeq_eq_flatten (r : MReader) : readerSeq r = r.rs.flatten := by
  match hrs : r.rs with
  | [] => simp [readerSeq, iterM, hrs]
  | s0 :: rest =>
    simp only [readerSeq, iterM, hrs]
    simp only [Option.elim]
    have hb : s0.length + (((s0 :: rest).drop (0 + 1)).map List.length).sum +
        ((s0 :: rest).length - 0) ≤ iterFuel (s0 :: rest) := by
      simp [iterFuel]
      omega
    have hc := collectIt_eq (iterFuel (s0 :: rest)) { rs := s0 :: rest, i := 0, cur := s0 }
      (by simpa using hb)
    rw [hc]
    simp

/-! ### Directory operations on canonical generations -/

theorem genNames_nodup (k : Nat) : (genNames k).Nodup := by
  refine List.Nodup.map ?_ (List.nodup_range _)
  intro a b hab
  exact mkName_inj_idx (2 ^ k) (k + 1) a b hab

theorem genNames_length (k : Nat) : (genNames k).length = 2 ^ k := by
  simp [genNames]

theorem genW_ws_length (k : Nat) (recs : Nat → List Rec) (g : Bool) :
    (genW k recs g).ws.length = 2 ^ k := by
  simp [genW, genNames_length]

theorem genNames_get (k : Nat) (b : Nat) (hb : b < 2 ^ k) :
    (genNames k).get ⟨b, by simpa [genNames_length] using hb⟩ = mkName (2 ^ k) b (k + 1) := by
  simp [genNames]

theorem mem_genNames (k : Nat) (nm : FName) :
    nm ∈ genNames k ↔ ∃ i, i < 2 ^ k ∧ nm = mkName (2 ^ k) i (k + 1) := by
  simp only [genNames, List.mem_map, List.mem_range]
  constructor
  · rintro ⟨i, hi, rfl⟩
    exact ⟨i, hi, rfl⟩
  · rintro ⟨i, hi, rfl⟩
    exact ⟨i, hi, rfl⟩

theorem genDir_names (k : Nat) (recs : Nat → List Rec) (f : FName × List Rec)
    (hf : f ∈ genDir k recs) : ∃ i, i < 2 ^ k ∧ f = (mkName (2 ^ k) i (k + 1), recs i) := by
  simp only [genDir, List.mem_map, List.mem_range] at hf
  obtain ⟨i, hi, hfi⟩ := hf
  exact ⟨i, hi, hfi.symm⟩

/-- Generations do not share file names. -/
theorem genName_ne (k q : Nat) (hkq : 2 ^ k ≠ 2 ^ q) (i j w w' : Nat) :
    mkName (2 ^ k) i w ≠ mkName (2 ^ q) j w' := by
  intro h
  exact hkq (mkName_inj_total _ i w _ j w' h)

theorem dirGet_map_of_mem (ps : List Nat) (nameF : Nat → FName) (recs : Nat → List Rec)
    (hinj : ∀ a b, nameF a = nameF b → a = b) (i : Nat) (hi : i ∈ ps) :
    dirGet (ps.map (fun j => (nameF j, recs j))) (nameF i) = recs i := by
  induction ps with
  | nil => simp at hi
  | cons p rest ih =>
    by_cases hpi : p = i
    · subst hpi
      simp [dirGet, List.find?]
    · have hne : ¬ (nameF p = nameF i) := fun h => hpi (hinj p i h)
      have hi' : i ∈ rest := by
        rcases List.mem_cons.mp hi with h | h
        · omega
        · exact h
      simp only [dirGet, List.map_cons, List.find?] at *
      rw [decide_eq_false hne]
      exact ih hi'

theorem dirGet_genDir (k : Nat) (recs : Nat → List Rec) (i : Nat) (hi : i < 2 ^ k) :
    dirGet (genDir k recs) (mkName (2 ^ k) i (k + 1)) = recs i := by
  exact dirGet_map_of_mem (List.range (2 ^ k)) _ recs
    (fun a b => mkName_inj_idx (2 ^ k) (k + 1) a b) i (List.mem_range.mpr hi)

theorem dirSet_map_update (ps : List Nat) (nameF : Nat → FName) (recs : Nat → List Rec)
    (hinj : ∀ a b, nameF a = nameF b → a = b) (b : Nat) (hb : b ∈ ps) (new : List Rec) :
    dirSet (ps.map (fun j => (nameF j, recs j))) (nameF b) new =
      ps.map (fun j => (nameF j, if j = b then new else recs j)) := by
  have hany : (ps.map (fun j => (nameF j, recs j))).any
      (fun e => decide (e.1 = nameF b)) = true := by
    rw [List.any_eq_true]
    exact ⟨(nameF b, recs b), List.mem_map.mpr ⟨b, hb, rfl⟩, by simp⟩
  simp only [dirSet, hany, if_true, List.map_map]
  refine List.map_congr_left ?_
  intro j hj
  by_cases hjb : j = b
  · subst hjb
    simp
  · have hne : ¬ (nameF j = nameF b) := fun h => hjb (hinj j b h)
    simp [hne, hjb]

theorem dirSet_genDir (k : Nat) (recs : Nat → List Rec) (b : Nat) (hb : b < 2 ^ k)
    (new : List Rec) :
    dirSet (genDir k recs) (mkName (2 ^ k) b (k + 1)) new =
      genDir k (fun j => if j = b then new else recs j) := by
  have h := dirSet_map_update (List.range (2 ^ k)) (fun i => mkName (2 ^ k) i (k + 1)) recs
    (fun a b => mkName_inj_idx (2 ^ k) (k + 1) a b) b (List.mem_range.mpr hb) new
  simpa [genDir] using h

theorem dirSet_append_left_of_ne (d1 d2 : Dir) (nm : FName) (r : List Rec)
    (h1 : ∀ e ∈ d1, e.1 ≠ nm)
    (h2 : d2.any (fun e => decide (e.1 = nm)) = true) :
    dirSet (d1 ++ d2) nm r = d1 ++ dirSet d2 nm r := by
  have hany : (d1 ++ d2).any (fun e => decide (e.1 = nm)) = true := by
    rw [List.any_append, h2]
    simp
  simp only [dirSet, hany, h2, if_true, List.map_append]
  congr 1
  have hid : List.map (fun e => if e.1 = nm then (nm, r) else e) d1 = List.map id d1 :=
    List.map_congr_left (fun e he => by simp [h1 e he])
  simpa using hid

theorem dirSet_fresh (d : Dir) (nm : FName) (r : List Rec) (h : ∀ e ∈ d, e.1 ≠ nm) :
    dirSet d nm r = d ++ [(nm, r)] := by
  have hany : d.any (fun e => decide (e.1 = nm)) = false := by
    rw [List.any_eq_false]
    intro e he
    simp [h e he]
  simp [dirSet, hany]

theorem foldl_dirSet_fresh (names : List FName) (d : Dir)
    (hfresh : ∀ nm ∈ names, ∀ e ∈ d, e.1 ≠ nm) (hnd : names.Nodup) :
    names.foldl (fun acc nm => dirSet acc nm []) d = d ++ names.map (fun nm => (nm, [])) := by
  induction names generalizing d with
  | nil => simp
  | cons nm rest ih =>
    simp only [List.foldl_cons, List.map_cons]
    rw [dirSet_fresh d nm [] (hfresh nm (by simp))]
    rw [ih (d ++ [(nm, [])]) ?_ (by simp at hnd; exact hnd.2)]
    · simp
    · intro nm2 hnm2 e he
      rcases List.mem_append.mp he with h | h
      · exact hfresh nm2 (by simp [hnm2]) e h
      · simp only [List.mem_singleton] at h
        subst h
        intro hc
        simp only [List.nodup_cons] at hnd
        have hc2 : nm = nm2 := hc
        exact hnd.1 (hc2 ▸ hnm2)

theorem foldl_dirRemove_filter (names : List FName) (d : Dir) :
    names.foldl dirRemove d = d.filter (fun e => decide (e.1 ∉ names)) := by
  induction names generalizing d with
  | nil => simp
  | cons nm rest ih =>
    simp only [List.foldl_cons]
    rw [ih]
    simp only [dirRemove, List.filter_filter]
    refine List.filter_congr ?_
    intro e he
    simp only [List.mem_cons, decide_not]
    by_cases h1 : e.1 = nm <;> by_cases h2 : e.1 ∈ rest <;> simp [h1, h2]


/-! ### Writers in canonical shape -/

theorem genW_congr (k : Nat) (recs1 recs2 : Nat → List Rec) (g : Bool)
    (h : ∀ i, i < 2 ^ k → recs1 i = recs2 i) : genW k recs1 g = genW k recs2 g := by
  have hdir : genDir k recs1 = genDir k recs2 := by
    simp only [genDir]
    refine List.map_congr_left ?_
    intro i hi
    rw [h i (List.mem_range.mp hi)]
  simp [genW, hdir]

theorem genContents_congr (k : Nat) (recs1 recs2 : Nat → List Rec)
    (h : ∀ i, i < 2 ^ k → recs1 i = recs2 i) : genContents k recs1 = genContents k recs2 := by
  simp only [genContents]
  congr 1
  refine List.map_congr_left ?_
  intro i hi
  exact h i (List.mem_range.mp hi)

theorem contentsW_genW (k : Nat) (recs : Nat → List Rec) (g : Bool) :
    contentsW (genW k recs g) = genContents k recs := by
  simp only [contentsW, genW, genNames, genContents, List.map_map]
  congr 1
  refine List.map_congr_left ?_
  intro i hi
  exact dirGet_genDir k recs i (List.mem_range.mp hi)

/-- Appending one record to one shard is, as a multiset, adding it to the
whole contents. -/
theorem flatten_map_update (ps : List Nat) (f : Nat → List Rec) (b : Nat) (x : Rec)
    (hmem : b ∈ ps) (hnd : ps.Nodup) :
    ((ps.map (fun i => if i = b then f b ++ [x] else f i)).flatten).Perm
      (x :: (ps.map f).flatten) := by
  induction ps with
  | nil => simp at hmem
  | cons p rest ih =>
    simp only [List.nodup_cons] at hnd
    by_cases hpb : p = b
    · subst hpb
      have hrest : rest.map (fun i => if i = p then f p ++ [x] else f i) = rest.map f := by
        refine List.map_congr_left ?_
        intro i hi
        have : ¬ (i = p) := fun hc => hnd.1 (hc ▸ hi)
        simp [this]
      simp only [List.map_cons, if_pos rfl, List.flatten_cons, hrest]
      have h1 : ((f p ++ [x]) ++ (rest.map f).flatten).Perm
          (([x] ++ f p) ++ (rest.map f).flatten) :=
        List.Perm.append_right _ List.perm_append_comm
      have h2 : ([x] ++ f p) ++ (rest.map f).flatten = x :: (f p ++ (rest.map f).flatten) := by
        simp
      rw [h2] at h1
      exact h1
    · have hb : b ∈ rest := by
        rcases List.mem_cons.mp hmem with h | h
        · exact absurd h.symm hpb
        · exact h
      simp only [List.map_cons, if_neg hpb, List.flatten_cons]
      have h1 : (f p ++ (rest.map (fun i => if i = b then f b ++ [x] else f i)).flatten).Perm
          (f p ++ (x :: (rest.map f).flatten)) :=
        List.Perm.append_left _ (ih hb hnd.2)
      exact h1.trans List.perm_middle


/-! ### `NewWriter` produces canonical generations -/

theorem newMWriter_shape (d : Dir) (n : Int) (k : Nat)
    (hp : writerParams n = (decide (n ≤ 0), 2 ^ k, 32 - (k : Int)))
    (hfr : ∀ nm ∈ genNames k, ∀ e ∈ d, e.1 ≠ nm) :
    newMWriter d n =
      { dir := d ++ genDir k (fun _ => []), ws := genNames k,
        expC := 32 - (k : Int), canGrow := decide (n ≤ 0) } := by
  have hw : ((32 : Int) - (32 - (k : Int)) + 1).toNat = k + 1 := by omega
  simp only [newMWriter, hp, hw]
  have hnames : (List.range (2 ^ k)).map (fun i => mkName (2 ^ k) i (k + 1)) = genNames k := rfl
  rw [hnames, foldl_dirSet_fresh (genNames k) d hfr (genNames_nodup k)]
  have hdir : (genNames k).map (fun nm => (nm, ([] : List Rec))) = genDir k (fun _ => []) := by
    simp [genNames, genDir, List.map_map]
  rw [hdir]

theorem newMWriter_empty (n : Int) :
    ∃ k : Nat, writerParams n = (decide (n ≤ 0), 2 ^ k, 32 - (k : Int)) ∧
      newMWriter [] n = genW k (fun _ => []) (decide (n ≤ 0)) := by
  obtain ⟨k, hp, _⟩ := writerParams_spec n
  refine ⟨k, hp, ?_⟩
  rw [newMWriter_shape [] n k hp (by simp)]
  simp [genW]

/-- The doubled writer created inside the growth path, over the old
directory: old files untouched, fresh empty files of generation `k+1`. -/
theorem newMWriter_double (k : Nat) (recs : Nat → List Rec) :
    newMWriter (genDir k recs) (2 * ((genW k recs true).ws.length : Int)) =
      { dir := genDir k recs ++ genDir (k + 1) (fun _ => []), ws := genNames (k + 1),
        expC := 32 - ((k + 1 : Nat) : Int), canGrow := false } := by
  have hlen : (genW k recs true).ws.length = 2 ^ k := genW_ws_length k recs true
  have hcast : 2 * ((genW k recs true).ws.length : Int) = ((2 ^ (k + 1) : Nat) : Int) := by
    rw [hlen]
    push_cast
    ring
  rw [hcast]
  have hp := writerParams_pow2 (k + 1)
  have hdec : decide (((2 ^ (k + 1) : Nat) : Int) ≤ 0) = false := by
    rw [decide_eq_false_iff_not]
    have hk : (0 : Nat) < 2 ^ (k + 1) := by positivity
    have : (0 : Int) < ((2 ^ (k + 1) : Nat) : Int) := by exact_mod_cast hk
    omega
  rw [newMWriter_shape (genDir k recs) _ (k + 1) (by rw [hp, hdec]) ?_]
  · rw [hdec]
  · intro nm hnm e he
    obtain ⟨i, hi, rfl⟩ := (mem_genNames (k + 1) nm).mp hnm
    obtain ⟨j, hj, rfl⟩ := genDir_names k recs e he
    exact genName_ne k (k + 1) (by
      intro hc
      have := Nat.pow_right_injective (le_refl 2) hc
      omega) j i (k + 1) (k + 2)


/-! ### Small list and directory helpers for the put characterizations -/

theorem dirGet_append_of_ne (d0 d : Dir) (nm : FName) (h : ∀ e ∈ d0, e.1 ≠ nm) :
    dirGet (d0 ++ d) nm = dirGet d nm := by
  induction d0 with
  | nil => simp
  | cons e rest ih =>
    have hne : ¬ (e.1 = nm) := h e (by simp)
    simp only [List.cons_append, dirGet, List.find?]
    rw [decide_eq_false hne]
    exact ih (fun e2 he2 => h e2 (by simp [he2]))

/-- With pairwise-distinct keys, `find?` on a key that is present returns
exactly its record. -/
theorem find_keys_nodup (l : List Rec) (hnd : (l.map Prod.fst).Nodup)
    (key : List Nat) (v : List Nat) (hm : (key, v) ∈ l) :
    l.find? (fun e => decide (e.1 = key)) = some (key, v) := by
  induction l with
  | nil => simp at hm
  | cons e rest ih =>
    simp only [List.map_cons, List.nodup_cons] at hnd
    by_cases hek : e.1 = key
    · have hev : e = (key, v) := by
        rcases List.mem_cons.mp hm with h | h
        · exact h.symm
        · exfalso
          exact hnd.1 (hek ▸ List.mem_map.mpr ⟨(key, v), h, rfl⟩)
      simp [List.find?, hek, hev]
    · have hm' : (key, v) ∈ rest := by
        rcases List.mem_cons.mp hm with h | h
        · exact absurd (congrArg Prod.fst h.symm) hek
        · exact h
      simp only [List.find?]
      rw [decide_eq_false hek]
      exact ih hnd.2 hm'

theorem flatten_map_nil (l : List Nat) :
    ((l.map (fun _ => ([] : List Rec))).flatten) = [] := by
  induction l with
  | nil => rfl
  | cons x rest ih => simp [ih]

/-- Flattening a pointwise append is, as a multiset, the two flattenings. -/
theorem flatten_map_append (l : List Nat) (f g : Nat → List Rec) :
    ((l.map (fun i => f i ++ g i)).flatten).Perm
      ((l.map f).flatten ++ (l.map g).flatten) := by
  induction l with
  | nil => simp
  | cons x rest ih =>
    simp only [List.map_cons, List.flatten_cons]
    have h1 : ((f x ++ g x) ++ (rest.map (fun i => f i ++ g i)).flatten).Perm
        ((f x ++ g x) ++ ((rest.map f).flatten ++ (rest.map g).flatten)) :=
      List.Perm.append_left _ ih
    refine h1.trans ?_
    simp only [List.append_assoc]
    refine List.Perm.append_left (f x) ?_
    have h2 : ((g x ++ (rest.map f).flatten) ++ (rest.map g).flatten).Perm
        (((rest.map f).flatten ++ g x) ++ (rest.map g).flatten) :=
      List.Perm.append_right _ List.perm_append_comm
    simp only [List.append_assoc] at h2
    exact h2

/-- Consing one record onto one slot of a pointwise family is, as a
multiset, consing it onto the whole flattening. -/
theorem flatten_map_update_cons (ps : List Nat) (f : Nat → List Rec) (b : Nat) (x : Rec)
    (hmem : b ∈ ps) (hnd : ps.Nodup) :
    ((ps.map (fun i => if i = b then x :: f b else f i)).flatten).Perm
      (x :: (ps.map f).flatten) := by
  induction ps with
  | nil => simp at hmem
  | cons p rest ih =>
    simp only [List.nodup_cons] at hnd
    by_cases hpb : p = b
    · subst hpb
      have hrest : rest.map (fun i => if i = p then x :: f p else f i) = rest.map f := by
        refine List.map_congr_left ?_
        intro i hi
        have : ¬ (i = p) := fun hc => hnd.1 (hc ▸ hi)
        simp [this]
      simp [hrest]
    · have hb : b ∈ rest := by
        rcases List.mem_cons.mp hmem with h | h
        · exact absurd h.symm hpb
        · exact h
      simp only [List.map_cons, if_neg hpb, List.flatten_cons]
      have h1 : (f p ++ (rest.map (fun i => if i = b then x :: f b else f i)).flatten).Perm
          (f p ++ (x :: (rest.map f).flatten)) :=
        List.Perm.append_left _ (ih hb hnd.2)
      exact h1.trans List.perm_middle

/-- When every record routes to some in-range bucket, the per-bucket filters
partition the record list. -/
theorem bucketPartition (k : Nat) : ∀ (P : List Rec),
    (∀ rec ∈ P, ∃ b, bucket fnvHash rec.1 (32 - (k : Int)) = some b ∧ b < 2 ^ k) →
    (((List.range (2 ^ k)).map (bucketFilter k P)).flatten).Perm P := by
  intro P
  induction P with
  | nil =>
    intro _
    have h0 : (List.range (2 ^ k)).map (bucketFilter k ([] : List Rec)) =
        (List.range (2 ^ k)).map (fun _ => ([] : List Rec)) := by
      refine List.map_congr_left ?_
      intro i _
      simp [bucketFilter]
    rw [h0, flatten_map_nil]
  | cons rec P' ih =>
    intro hall
    obtain ⟨b, hb, hblt⟩ := hall rec (by simp)
    have hmap : (List.range (2 ^ k)).map (bucketFilter k (rec :: P')) =
        (List.range (2 ^ k)).map
          (fun i => if i = b then rec :: bucketFilter k P' b else bucketFilter k P' i) := by
      refine List.map_congr_left ?_
      intro i _
      by_cases hib : i = b
      · subst hib
        simp [bucketFilter, List.filter_cons, hb]
      · have hne : ¬ (bucket fnvHash rec.1 (32 - (k : Int)) = some i) := by
          rw [hb]
          simp
          omega
        simp [bucketFilter, List.filter_cons, hne, hib]
    rw [hmap]
    have h1 := flatten_map_update_cons (List.range (2 ^ k)) (bucketFilter k P') b rec
      (List.mem_range.mpr hblt) (List.nodup_range _)
    refine h1.trans ?_
    exact List.Perm.cons rec (ih (fun r hr => hall r (by simp [hr])))

/-- Entries that do not match the name pattern are skipped wholesale. -/
theorem scanAll_skip_all (st : ScanSt) : ∀ (l : Dir),
    (∀ f ∈ l, matchesPat f.1 = false) → scanAll st l = .ok st := by
  intro l
  induction l with
  | nil => intro _; rfl
  | cons f fs ih =>
    intro h
    simp only [scanAll]
    rw [scanStep_skip st f (h f (by simp))]
    exact ih (fun g hg => h g (by simp [hg]))


/-! ### A directory holding two different shard totals never opens -/

/-- From a well-formed scan state, a directory of all-parsing v1 entries that
contains an entry whose total disagrees with the slot count ends in an error. -/
theorem scanAll_wf_mixed (e : Int) : ∀ (l : Dir) (sl : List (Option (List Rec))),
    (∀ f ∈ l, matchesPat f.1 = true ∧ ∃ t i, parseEntry f.1 = some (1, t, i)) →
    (∃ f ∈ l, ∀ t i, parseEntry f.1 = some (1, t, i) → t ≠ sl.length) →
    ∃ er, scanAll ⟨some sl, e, 1⟩ l = .error er := by
  intro l
  induction l with
  | nil =>
    intro sl _ hex
    obtain ⟨f, hf, _⟩ := hex
    simp at hf
  | cons f fs ih =>
    intro sl hall hex
    obtain ⟨hm, t, i, hp⟩ := hall f (by simp)
    by_cases ht : t = sl.length
    · subst ht
      by_cases hti : sl.length < i
      · exact ⟨.secondNum, by simp [scanAll, scanStep, hm, hp, scanPlace, hti]⟩
      · by_cases hil : i < sl.length
        · have hstep : scanStep ⟨some sl, e, 1⟩ f = .ok ⟨some (sl.set i (some f.2)), e, 1⟩ := by
            simp [scanStep, hm, hp, scanPlace, hti, hil]
          obtain ⟨f0, hf0, hprop⟩ := hex
          have hf0fs : f0 ∈ fs := by
            rcases List.mem_cons.mp hf0 with rfl | h
            · exact absurd rfl (hprop sl.length i hp)
            · exact h
          have hex' : ∃ g ∈ fs, ∀ t' i', parseEntry g.1 = some (1, t', i') →
              t' ≠ (sl.set i (some f.2)).length := by
            refine ⟨f0, hf0fs, ?_⟩
            intro t' i' hp'
            have hne := hprop t' i' hp'
            simpa using hne
          obtain ⟨er, her⟩ := ih (sl.set i (some f.2)) (fun g hg => hall g (by simp [hg])) hex'
          refine ⟨er, ?_⟩
          simp only [scanAll, hstep]
          exact her
        · exact ⟨.indexPanic i, by simp [scanAll, scanStep, hm, hp, scanPlace, hti, hil]⟩
    · exact ⟨.firstNum, by simp [scanAll, scanStep, hm, hp, scanPlace, ht]⟩

/-- A directory of all-parsing v1 entries holding two different totals makes
the scan fail. -/
theorem scanAll_mixed_error (l : Dir)
    (hall : ∀ f ∈ l, matchesPat f.1 = true ∧ ∃ t i, parseEntry f.1 = some (1, t, i))
    (f1 f2 : FName × List Rec) (h1 : f1 ∈ l) (h2 : f2 ∈ l)
    (t1 i1 t2 i2 : Nat) (hp1 : parseEntry f1.1 = some (1, t1, i1))
    (hp2 : parseEntry f2.1 = some (1, t2, i2)) (hne : t1 ≠ t2) :
    ∃ er, scanAll initScan l = .error er := by
  match l, h1, h2 with
  | f :: fs, h1, h2 =>
    obtain ⟨hm, t, i, hp⟩ := hall f (by simp)
    by_cases hti : t < i
    · exact ⟨.secondNum, by simp [scanAll, scanStep, initScan, hm, hp, scanPlace, hti]⟩
    · by_cases hil : i < t
      · have hstep : scanStep initScan f =
            .ok ⟨some ((List.replicate t none).set i (some f.2)), expOf t, 1⟩ := by
          simp [scanStep, initScan, hm, hp, scanPlace, hti, hil]
        have hlen : ((List.replicate t (none : Option (List Rec))).set i (some f.2)).length
            = t := by simp
        by_cases h1t : t1 = t
        · have h2t : t2 ≠ t := fun hc => hne (h1t.trans hc.symm)
          have hf2fs : f2 ∈ fs := by
            rcases List.mem_cons.mp h2 with rfl | h
            · rw [hp] at hp2
              simp only [Option.some.injEq, Prod.mk.injEq, true_and] at hp2
              exact absurd hp2.1.symm h2t
            · exact h
          obtain ⟨er, her⟩ := scanAll_wf_mixed (expOf t) fs _
            (fun g hg => hall g (by simp [hg]))
            ⟨f2, hf2fs, by
              intro t' i' hp'
              rw [hp2] at hp'
              simp only [Option.some.injEq, Prod.mk.injEq, true_and] at hp'
              rw [hlen, ← hp'.1]
              exact h2t⟩
          refine ⟨er, ?_⟩
          simp only [scanAll, hstep]
          exact her
        · have hf1fs : f1 ∈ fs := by
            rcases List.mem_cons.mp h1 with rfl | h
            · rw [hp] at hp1
              simp only [Option.some.injEq, Prod.mk.injEq, true_and] at hp1
              exact absurd hp1.1.symm h1t
            · exact h
          obtain ⟨er, her⟩ := scanAll_wf_mixed (expOf t) fs _
            (fun g hg => hall g (by simp [hg]))
            ⟨f1, hf1fs, by
              intro t' i' hp'
              rw [hp1] at hp'
              simp only [Option.some.injEq, Prod.mk.injEq, true_and] at hp'
              rw [hlen, ← hp'.1]
              exact h1t⟩
          refine ⟨er, ?_⟩
          simp only [scanAll, hstep]
          exact her
      · exact ⟨.indexPanic i, by simp [scanAll, scanStep, initScan, hm, hp, scanPlace, hti, hil]⟩

/-- Opening a directory holding the files of two different generations fails:
the two totals disagree. -/
theorem newReaderDir_two_gens (q k : Nat) (hqk : 2 ^ q ≠ 2 ^ k)
    (rold rnew : Nat → List Rec) :
    ∃ er, newReaderDir (genDir q rold ++ genDir k rnew) = .error er := by
  have hperm := List.perm_insertionSort fileLe (genDir q rold ++ genDir k rnew)
  have hall : ∀ f ∈ sortDir (genDir q rold ++ genDir k rnew),
      matchesPat f.1 = true ∧ ∃ t i, parseEntry f.1 = some (1, t, i) := by
    intro f hf
    have hfd : f ∈ genDir q rold ++ genDir k rnew := hperm.mem_iff.mp hf
    rcases List.mem_append.mp hfd with h | h
    · obtain ⟨i, hi, rfl⟩ := genDir_names q rold f h
      exact ⟨matchesPat_mkName _ _ _, 2 ^ q, i, parseEntry_mkName _ _ _⟩
    · obtain ⟨i, hi, rfl⟩ := genDir_names k rnew f h
      exact ⟨matchesPat_mkName _ _ _, 2 ^ k, i, parseEntry_mkName _ _ _⟩
  have hq0 : 0 < 2 ^ q := by positivity
  have hk0 : 0 < 2 ^ k := by positivity
  have h1 : (mkName (2 ^ q) 0 (q + 1), rold 0) ∈
      sortDir (genDir q rold ++ genDir k rnew) := by
    refine hperm.mem_iff.mpr (List.mem_append.mpr (Or.inl ?_))
    exact List.mem_map.mpr ⟨0, List.mem_range.mpr hq0, rfl⟩
  have h2 : (mkName (2 ^ k) 0 (k + 1), rnew 0) ∈
      sortDir (genDir q rold ++ genDir k rnew) := by
    refine hperm.mem_iff.mpr (List.mem_append.mpr (Or.inr ?_))
    exact List.mem_map.mpr ⟨0, List.mem_range.mpr hk0, rfl⟩
  obtain ⟨er, her⟩ := scanAll_mixed_error _ hall _ _ h1 h2 (2 ^ q) 0 (2 ^ k) 0
    (parseEntry_mkName _ _ _) (parseEntry_mkName _ _ _) hqk
  refine ⟨er, ?_⟩
  simp only [newReaderDir, sortDir] at her ⊢
  rw [her]


/-! ### `Put` on a writer that cannot grow further only appends in place -/

/-- On a writer whose directory is a generation-`k` shard set behind an
unrelated prefix, and for which growth is off or reopening fails, a
successful `putStep` is exactly the in-place append to the routed shard. -/
theorem putStep_stuck_ok (cap : Nat) (recur : MWriter → List Nat → List Nat → Option PutRes)
    (d0 : Dir) (k : Nat) (recs : Nat → List Rec) (g : Bool) (key val : List Nat) (m' : MWriter)
    (hd0 : ∀ e ∈ d0, ∀ nm ∈ genNames k, e.1 ≠ nm)
    (hstuck : g = true → ∃ er, newReaderDir (d0 ++ genDir k recs) = .error er)
    (h : putStep cap recur ⟨d0 ++ genDir k recs, genNames k, 32 - (k : Int), g⟩ key val =
      some (.ok m')) :
    ∃ b, bucket fnvHash key (32 - (k : Int)) = some b ∧ b < 2 ^ k ∧
      shardSize (recs b) + recSize (key, val) ≤ cap ∧
      m' = ⟨d0 ++ genDir k (fun j => if j = b then recs b ++ [(key, val)] else recs j),
            genNames k, 32 - (k : Int), g⟩ := by
  rcases hbk : bucket fnvHash key (32 - (k : Int)) with _ | b
  · simp [putStep, hbk] at h
  · refine ⟨b, rfl, ?_⟩
    by_cases hb : b < (genNames k).length
    · have hblt : b < 2 ^ k := by
        rw [← genNames_length k]
        exact hb
      have hget : (genNames k)[b] = mkName (2 ^ k) b (k + 1) := by
        simp [genNames]
      have hnm_mem : mkName (2 ^ k) b (k + 1) ∈ genNames k :=
        (mem_genNames k _).mpr ⟨b, hblt, rfl⟩
      have hdget : dirGet (d0 ++ genDir k recs) (mkName (2 ^ k) b (k + 1)) = recs b := by
        rw [dirGet_append_of_ne d0 _ _ (fun e he => hd0 e he _ hnm_mem)]
        exact dirGet_genDir k recs b hblt
      by_cases hfit : shardSize (recs b) + recSize (key, val) ≤ cap
      · refine ⟨hblt, hfit, ?_⟩
        have hset : dirSet (d0 ++ genDir k recs) (mkName (2 ^ k) b (k + 1))
            (recs b ++ [(key, val)]) =
            d0 ++ genDir k (fun j => if j = b then recs b ++ [(key, val)] else recs j) := by
          rw [dirSet_append_left_of_ne d0 _ _ _ (fun e he => hd0 e he _ hnm_mem) ?_]
          · rw [dirSet_genDir k recs b hblt]
          · rw [List.any_eq_true]
            refine ⟨(mkName (2 ^ k) b (k + 1), recs b), ?_, by simp⟩
            simp only [genDir, List.mem_map, List.mem_range]
            exact ⟨b, hblt, rfl⟩
        simp [putStep, hbk, hget, hdget, hb, hfit, hset] at h
        exact h.symm
      · exfalso
        rcases hg : g with _ | _
        · simp [putStep, hbk, hget, hdget, hb, hfit, hg] at h
        · obtain ⟨er, her⟩ := hstuck hg
          simp [putStep, hbk, hget, hdget, hb, hfit, hg, her] at h
    · exfalso
      simp [putStep, hbk, hb] at h

/-- `putM` is `putStep` with some recursive continuation. -/
theorem putM_as_step (cap fuel : Nat) :
    ∃ recur, ∀ m key val, putM cap fuel m key val = putStep cap recur m key val := by
  cases fuel with
  | zero => exact ⟨fun _ _ _ => none, fun _ _ _ => rfl⟩
  | succ f => exact ⟨fun m2 k2 v2 => putM cap f m2 k2 v2, fun _ _ _ => rfl⟩

/-- `putStep_stuck_ok`, lifted to `putM` at any fuel. -/
theorem putM_stuck_ok (cap fuel : Nat)
    (d0 : Dir) (k : Nat) (recs : Nat → List Rec) (g : Bool) (key val : List Nat) (m' : MWriter)
    (hd0 : ∀ e ∈ d0, ∀ nm ∈ genNames k, e.1 ≠ nm)
    (hstuck : g = true → ∃ er, newReaderDir (d0 ++ genDir k recs) = .error er)
    (h : putM cap fuel ⟨d0 ++ genDir k recs, genNames k, 32 - (k : Int), g⟩ key val =
      some (.ok m')) :
    ∃ b, bucket fnvHash key (32 - (k : Int)) = some b ∧ b < 2 ^ k ∧
      shardSize (recs b) + recSize (key, val) ≤ cap ∧
      m' = ⟨d0 ++ genDir k (fun j => if j = b then recs b ++ [(key, val)] else recs j),
            genNames k, 32 - (k : Int), g⟩ := by
  obtain ⟨recur, hr⟩ := putM_as_step cap fuel
  rw [hr] at h
  exact putStep_stuck_ok cap recur d0 k recs g key val m' hd0 hstuck h


/-- A successful run of puts through a writer that cannot grow appends each
record to its routed shard, in order. -/
theorem putSeq_stuck_ok (cap fuel : Nat) (d0 : Dir) (k : Nat) (g : Bool)
    (hd0 : ∀ e ∈ d0, ∀ nm ∈ genNames k, e.1 ≠ nm)
    (hstuck : ∀ recs0 : Nat → List Rec, g = true →
      ∃ er, newReaderDir (d0 ++ genDir k recs0) = .error er) :
    ∀ (puts : List Rec) (recs : Nat → List Rec) (m' : MWriter),
    putSeq (putM cap fuel) ⟨d0 ++ genDir k recs, genNames k, 32 - (k : Int), g⟩ puts =
      some (.ok m') →
    m' = ⟨d0 ++ genDir k (fun i => recs i ++ bucketFilter k puts i),
          genNames k, 32 - (k : Int), g⟩ ∧
    ∀ rec ∈ puts, ∃ b, bucket fnvHash rec.1 (32 - (k : Int)) = some b ∧ b < 2 ^ k := by
  intro puts
  induction puts with
  | nil =>
    intro recs m' h
    simp only [putSeq, Option.some.injEq, Except.ok.injEq] at h
    refine ⟨?_, by simp⟩
    rw [← h]
    have hfun : (fun i => recs i ++ bucketFilter k ([] : List Rec) i) = recs := by
      funext i
      simp [bucketFilter]
    rw [hfun]
  | cons rec rest ih =>
    obtain ⟨rk, rv⟩ := rec
    intro recs m' h
    rcases hput : putM cap fuel ⟨d0 ++ genDir k recs, genNames k, 32 - (k : Int), g⟩
        rk rv with _ | pr
    · simp [putSeq, hput] at h
    · rcases pr with ⟨e, d⟩ | m1
      · simp [putSeq, hput] at h
      · obtain ⟨b, hbk, hblt, hfit, hm1⟩ := putM_stuck_ok cap fuel d0 k recs g rk rv m1
          hd0 (hstuck recs) hput
        have hstep : putSeq (putM cap fuel)
            ⟨d0 ++ genDir k recs, genNames k, 32 - (k : Int), g⟩ ((rk, rv) :: rest) =
            putSeq (putM cap fuel) m1 rest := by
          simp [putSeq, hput]
        rw [hstep, hm1] at h
        obtain ⟨hm', hall⟩ := ih _ m' h
        constructor
        · rw [hm']
          have hfun : (fun i =>
              (if i = b then recs b ++ [(rk, rv)] else recs i) ++ bucketFilter k rest i) =
              (fun i => recs i ++ bucketFilter k ((rk, rv) :: rest) i) := by
            funext i
            by_cases hib : i = b
            · subst hib
              simp only [if_pos rfl, bucketFilter, List.filter_cons, hbk]
              simp
            · have hne : ¬ (bucket fnvHash rk (32 - (k : Int)) = some i) := by
                rw [hbk]
                simp
                omega
              simp [hib, bucketFilter, List.filter_cons, hne]
          rw [hfun]
        · intro r hr
          rcases List.mem_cons.mp hr with rfl | hr2
          · exact ⟨b, hbk, hblt⟩
          · exact hall r hr2


/-! ### The growth path of `Put` on a pure generation -/

theorem genDir_filter_out (k : Nat) (recs : Nat → List Rec) :
    (genDir k recs).filter (fun e => decide (e.1 ∉ genNames k)) = [] := by
  rw [List.filter_eq_nil_iff]
  intro e he
  obtain ⟨i, hi, rfl⟩ := genDir_names k recs e he
  simp only [decide_eq_true_eq, not_not]
  exact (mem_genNames k _).mpr ⟨i, hi, rfl⟩

theorem genDir_filter_keep (k q : Nat) (hne : 2 ^ k ≠ 2 ^ q) (recs : Nat → List Rec) :
    (genDir k recs).filter (fun e => decide (e.1 ∉ genNames q)) = genDir k recs := by
  rw [List.filter_eq_self]
  intro e he
  obtain ⟨i, hi, rfl⟩ := genDir_names k recs e he
  simp only [decide_eq_true_eq]
  intro hc
  obtain ⟨j, hj, hcj⟩ := (mem_genNames q _).mp hc
  exact genName_ne k q hne i j (k + 1) (q + 1) hcj

theorem pow_succ_ne (k : Nat) : (2 : Nat) ^ k ≠ 2 ^ (k + 1) := by
  have h : (2 : Nat) ^ k < 2 ^ (k + 1) := Nat.pow_lt_pow_right (by omega) (by omega)
  omega


/-- A successful `putStep` on a canonical generation either appends in place,
or (growth) rebuilds the next generation; either way the contents gain
exactly the new record. -/
theorem putStep_genW_ok (cap : Nat)
    (recur : MWriter → List Nat → List Nat → Option PutRes)
    (hrec : recur = (fun _ _ _ => none) ∨
      ∃ f, recur = fun m2 k2 v2 => putM cap f m2 k2 v2)
    (k : Nat) (recs : Nat → List Rec) (g : Bool) (key val : List Nat) (m' : MWriter)
    (h : putStep cap recur (genW k recs g) key val = some (.ok m')) :
    ∃ k' recs', m' = genW k' recs' g ∧
      (contentsW m').Perm ((key, val) :: contentsW (genW k recs g)) ∧
      (k' = k ∨ (k' = k + 1 ∧ g = true)) := by
  simp only [genW] at h
  rcases hbk : bucket fnvHash key (32 - (k : Int)) with _ | b
  · exfalso
    simp [putStep, hbk] at h
  · by_cases hb : b < (genNames k).length
    · have hblt : b < 2 ^ k := by
        rw [← genNames_length k]
        exact hb
      have hget : (genNames k)[b] = mkName (2 ^ k) b (k + 1) := by
        simp [genNames]
      have hdget : dirGet (genDir k recs) (mkName (2 ^ k) b (k + 1)) = recs b :=
        dirGet_genDir k recs b hblt
      by_cases hfit : shardSize (recs b) + recSize (key, val) ≤ cap
      · -- direct path: append to the routed shard
        have hset := dirSet_genDir k recs b hblt (recs b ++ [(key, val)])
        simp [putStep, hbk, hget, hdget, hb, hfit, hset] at h
        refine ⟨k, (fun j => if j = b then recs b ++ [(key, val)] else recs j), ?_, ?_, Or.inl rfl⟩
        · rw [← h]
          simp [genW]
        · rw [← h]
          have hcw : contentsW ⟨genDir k (fun j => if j = b then recs b ++ [(key, val)] else recs j),
              genNames k, 32 - (k : Int), g⟩ =
              genContents k (fun j => if j = b then recs b ++ [(key, val)] else recs j) :=
            contentsW_genW k _ g
          rw [hcw]
          have hperm := flatten_map_update (List.range (2 ^ k)) recs b (key, val)
            (List.mem_range.mpr hblt) (List.nodup_range _)
          have hcw2 : contentsW (genW k recs g) = genContents k recs := contentsW_genW k recs g
          rw [hcw2]
          exact hperm
      · rcases hg : g with _ | _
        · exfalso
          simp [putStep, hbk, hget, hdget, hb, hfit, hg] at h
        · -- growth path
          have hre : newReaderDir (genDir k recs) =
              .ok ⟨(List.range (2 ^ k)).map recs, expOf (2 ^ k), 1⟩ :=
            newReaderDir_complete (2 ^ k) (k + 1) (by positivity) recs _ (by rw [genDir])
          have hdouble : newMWriter (genDir k recs) (2 * ((genNames k).length : Int)) =
              ⟨genDir k recs ++ genDir (k + 1) (fun _ => []), genNames (k + 1),
                32 - ((k + 1 : Nat) : Int), false⟩ := by
            have hd := newMWriter_double k recs
            simpa [genW] using hd
          have hrseq : readerSeq ⟨(List.range (2 ^ k)).map recs, expOf (2 ^ k), 1⟩ =
              genContents k recs := by
            rw [readerSeq_eq_flatten]
            rfl
          rcases hrec with rfl | ⟨f, rfl⟩
          · exfalso
            simp [putStep, hbk, hget, hdget, hb, hfit, hg, hre, hdouble] at h
          · have hd0 : ∀ e ∈ genDir k recs, ∀ nm ∈ genNames (k + 1), e.1 ≠ nm := by
              intro e he nm hnm
              obtain ⟨i, hi, rfl⟩ := genDir_names k recs e he
              obtain ⟨j, hj, rfl⟩ := (mem_genNames (k + 1) nm).mp hnm
              exact genName_ne k (k + 1) (pow_succ_ne k) i j (k + 1) (k + 2)
            have hstuck : ∀ recs0 : Nat → List Rec, true = true →
                ∃ er, newReaderDir (genDir k recs ++ genDir (k + 1) recs0) = .error er :=
              fun recs0 _ => newReaderDir_two_gens k (k + 1) (pow_succ_ne k) recs recs0
            rcases hput2 : putM cap f ⟨genDir k recs ++ genDir (k + 1) (fun _ => []),
                genNames (k + 1), 32 - ((k : Int) + 1), true⟩ key val with _ | pr2
            · exfalso
              simp [putStep, hbk, hget, hdget, hb, hfit, hg, hre, hdouble, hput2] at h
            · rcases pr2 with ⟨e2, d2⟩ | m2b
              · exfalso
                simp [putStep, hbk, hget, hdget, hb, hfit, hg, hre, hdouble, hput2] at h
              · have hput2f : putM cap f ⟨genDir k recs ++ genDir (k + 1) (fun _ => []),
                    genNames (k + 1), 32 - ((k + 1 : Nat) : Int), true⟩ key val =
                    some (.ok m2b) := by
                  push_cast
                  exact hput2
                obtain ⟨b2, hbk2, hblt2, hfit2, hm2b⟩ :=
                  putM_stuck_ok cap f (genDir k recs) (k + 1) (fun _ => []) true key val m2b
                    hd0 (hstuck (fun _ => [])) hput2f
                rcases hseq : putSeq (fun m2 k2 v2 => putM cap f m2 k2 v2) m2b
                    (genContents k recs) with _ | sr
                · exfalso
                  simp [putStep, hbk, hget, hdget, hb, hfit, hg, hre, hdouble, hput2,
                    hrseq, hseq] at h
                · rcases sr with ⟨e3, d3⟩ | m2c
                  · exfalso
                    simp [putStep, hbk, hget, hdget, hb, hfit, hg, hre, hdouble, hput2,
                      hrseq, hseq] at h
                  · have hseqf : putSeq (putM cap f) ⟨genDir k recs ++ genDir (k + 1)
                        (fun j => if j = b2 then [] ++ [(key, val)] else []),
                        genNames (k + 1), 32 - ((k + 1 : Nat) : Int), true⟩
                        (genContents k recs) = some (.ok m2c) := by
                      rw [← hm2b]
                      exact hseq
                    obtain ⟨hm2c, hallb⟩ := putSeq_stuck_ok cap f (genDir k recs) (k + 1) true
                      hd0 hstuck (genContents k recs) _ m2c hseqf
                    have hfinal : m' = ⟨(genNames k).foldl dirRemove m2c.dir,
                        m2c.ws, m2c.expC, m2c.canGrow⟩ := by
                      simp [putStep, hbk, hget, hdget, hb, hfit, hg, hre, hdouble, hput2,
                        hrseq, hseq] at h
                      rw [← h]
                    have hdir : (genNames k).foldl dirRemove m2c.dir =
                        genDir (k + 1) (fun i => (if i = b2 then [] ++ [(key, val)] else []) ++
                          bucketFilter (k + 1) (genContents k recs) i) := by
                      rw [hm2c]
                      simp only [foldl_dirRemove_filter, List.filter_append]
                      rw [genDir_filter_out k recs,
                        genDir_filter_keep (k + 1) k (pow_succ_ne k).symm _]
                      simp
                    have hws : m2c.ws = genNames (k + 1) := by rw [hm2c]
                    have hexp : m2c.expC = 32 - ((k + 1 : Nat) : Int) := by rw [hm2c]
                    have hcg : m2c.canGrow = true := by rw [hm2c]
                    refine ⟨k + 1, (fun i => (if i = b2 then [] ++ [(key, val)] else []) ++
                      bucketFilter (k + 1) (genContents k recs) i), ?_, ?_, Or.inr ⟨rfl, rfl⟩⟩
                    · rw [hfinal, hdir, hws, hexp, hcg]
                      simp [genW]
                    · rw [hfinal, hdir, hws, hexp, hcg]
                      have hcw : contentsW ⟨genDir (k + 1) (fun i =>
                          (if i = b2 then [] ++ [(key, val)] else []) ++
                          bucketFilter (k + 1) (genContents k recs) i),
                          genNames (k + 1), 32 - ((k + 1 : Nat) : Int), true⟩ =
                          genContents (k + 1) (fun i =>
                          (if i = b2 then [] ++ [(key, val)] else []) ++
                          bucketFilter (k + 1) (genContents k recs) i) :=
                        contentsW_genW (k + 1) _ true
                      rw [hcw]
                      have hsplit := flatten_map_append (List.range (2 ^ (k + 1)))
                        (fun i => if i = b2 then [] ++ [(key, val)] else [])
                        (fun i => bucketFilter (k + 1) (genContents k recs) i)
                      have hone := flatten_map_update (List.range (2 ^ (k + 1)))
                        (fun _ => ([] : List Rec)) b2 (key, val)
                        (List.mem_range.mpr hblt2) (List.nodup_range _)
                      have hpart := bucketPartition (k + 1) (genContents k recs) hallb
                      have hnil := flatten_map_nil (List.range (2 ^ (k + 1)))
                      rw [hnil] at hone
                      have hcomb := hsplit.trans (List.Perm.append hone hpart)
                      have hgoal : ((key, val) :: ([] : List Rec)) ++ genContents k recs =
                          (key, val) :: genContents k recs := by simp
                      rw [hgoal] at hcomb
                      have hcw2 : contentsW (genW k recs true) = genContents k recs :=
                        contentsW_genW k recs true
                      rw [hcw2]
                      exact hcomb
    · exfalso
      simp [putStep, hbk, hb] at h


/-- `putStep_genW_ok`, lifted to `putM` at any fuel. -/
theorem putM_genW_ok (cap fuel : Nat) (k : Nat) (recs : Nat → List Rec) (g : Bool)
    (key val : List Nat) (m' : MWriter)
    (h : putM cap fuel (genW k recs g) key val = some (.ok m')) :
    ∃ k' recs', m' = genW k' recs' g ∧
      (contentsW m').Perm ((key, val) :: contentsW (genW k recs g)) ∧
      (k' = k ∨ (k' = k + 1 ∧ g = true)) := by
  cases fuel with
  | zero => exact putStep_genW_ok cap _ (Or.inl rfl) k recs g key val m' h
  | succ f => exact putStep_genW_ok cap _ (Or.inr ⟨f, rfl⟩) k recs g key val m' h

/-- A successful sequence of puts on a canonical generation lands on a
canonical generation holding, as a multiset, the old records plus all the
new ones. -/
theorem putSeq_genW_ok (cap fuel : Nat) : ∀ (puts : List Rec) (k : Nat)
    (recs : Nat → List Rec) (g : Bool) (m' : MWriter),
    putSeq (putM cap fuel) (genW k recs g) puts = some (.ok m') →
    ∃ k' recs', m' = genW k' recs' g ∧ k ≤ k' ∧
      (contentsW m').Perm (puts ++ contentsW (genW k recs g)) := by
  intro puts
  induction puts with
  | nil =>
    intro k recs g m' h
    simp only [putSeq, Option.some.injEq, Except.ok.injEq] at h
    refine ⟨k, recs, h.symm, le_rfl, ?_⟩
    rw [← h]
    simp
  | cons rec rest ih =>
    obtain ⟨rk, rv⟩ := rec
    intro k recs g m' h
    rcases hput : putM cap fuel (genW k recs g) rk rv with _ | pr
    · simp [putSeq, hput] at h
    · rcases pr with ⟨e, d⟩ | m1
      · simp [putSeq, hput] at h
      · obtain ⟨k1, recs1, hm1, hperm1, hk1⟩ := putM_genW_ok cap fuel k recs g rk rv m1 hput
        have hstep : putSeq (putM cap fuel) (genW k recs g) ((rk, rv) :: rest) =
            putSeq (putM cap fuel) m1 rest := by
          simp [putSeq, hput]
        rw [hstep, hm1] at h
        obtain ⟨k', recs', hm', hkle, hperm'⟩ := ih k1 recs1 g m' h
        refine ⟨k', recs', hm', ?_, ?_⟩
        · rcases hk1 with rfl | ⟨rfl, _⟩ <;> omega
        · rw [← hm1] at hperm'
          have h2 : (rest ++ contentsW m1).Perm
              (rest ++ ((rk, rv) :: contentsW (genW k recs g))) :=
            List.Perm.append_left rest hperm1
          have h3 := (hperm'.trans h2).trans List.perm_middle
          exact h3


/-! ### The dump encoding decodes back -/

theorem readFull_left (xs R : List Nat) : readFull xs.length (xs ++ R) = .ok (xs, R) := by
  have hle : xs.length ≤ (xs ++ R).length := by simp
  simp [readFull, hle, List.take_left, List.drop_left]

theorem scanHeader_enc (key val : List Nat) (rest : List Nat) :
    scanHeader (encHeader key val ++ rest) = .ok (key.length, val.length, rest) := by
  have hshape : encHeader key val ++ rest =
      43 :: ((decChars key.length).map Char.toNat ++
        (44 :: ((decChars val.length).map Char.toNat ++ (58 :: rest)))) := by
    simp [encHeader]
  rw [hshape]
  have h1 : parseNum byteDecDigit 10 ((decChars key.length).map Char.toNat ++
      (44 :: ((decChars val.length).map Char.toNat ++ (58 :: rest)))) =
      some (key.length, 44 :: ((decChars val.length).map Char.toNat ++ (58 :: rest))) :=
    parseNum_decBytes _ _ (Or.inr ⟨44, _, rfl, by decide⟩)
  have h2 : parseNum byteDecDigit 10 ((decChars val.length).map Char.toNat ++ (58 :: rest)) =
      some (val.length, 58 :: rest) :=
    parseNum_decBytes _ _ (Or.inr ⟨58, _, rfl, by decide⟩)
  simp [scanHeader, h1, h2]

theorem loadRec_enc (key val : List Nat) (rest : List Nat) :
    loadRec (encodeRec (key, val) ++ rest) = .ok ((key, val), rest) := by
  have hshape : encodeRec (key, val) ++ rest =
      encHeader key val ++ (key ++ (45 :: 62 :: (val ++ (10 :: rest)))) := by
    simp [encodeRec]
  rw [hshape]
  have hsc := scanHeader_enc key val (key ++ (45 :: 62 :: (val ++ (10 :: rest))))
  have hk := readFull_left key (45 :: 62 :: (val ++ (10 :: rest)))
  have hsep : readFull 2 (45 :: 62 :: (val ++ (10 :: rest))) =
      .ok ([45, 62], val ++ (10 :: rest)) := readFull_left [45, 62] (val ++ (10 :: rest))
  have hv : readFull val.length (val ++ (10 :: rest)) = .ok (val, 10 :: rest) :=
    readFull_left val (10 :: rest)
  simp [loadRec, hsc, hk, hsep, hv]

theorem loadRec_nil : loadRec [] = .error .eof := rfl

/-- A successful `Load` of an encoded record list is exactly the successful
sequence of the corresponding puts. -/
theorem mLoad_encoded_ok (cap pfuel : Nat) : ∀ (recsL : List Rec) (lfuel : Nat)
    (m m' : MWriter),
    mLoad cap pfuel lfuel m ((recsL.map encodeRec).flatten) = some (.ok m') →
    putSeq (putM cap pfuel) m recsL = some (.ok m') := by
  intro recsL
  induction recsL with
  | nil =>
    intro lfuel m m' h
    cases lfuel with
    | zero => simp [mLoad] at h
    | succ lf =>
      simp [mLoad, loadRec_nil] at h
      simp [putSeq, h]
  | cons rec rest ih =>
    obtain ⟨rk, rv⟩ := rec
    intro lfuel m m' h
    cases lfuel with
    | zero => simp [mLoad] at h
    | succ lf =>
      have hstream : (((rk, rv) :: rest).map encodeRec).flatten =
          encodeRec (rk, rv) ++ (rest.map encodeRec).flatten := by
        simp
      rw [hstream] at h
      have hld := loadRec_enc rk rv ((rest.map encodeRec).flatten)
      rcases hput : putM cap pfuel m rk rv with _ | pr
      · simp [mLoad, hld, hput] at h
      · rcases pr with ⟨e, d⟩ | m1
        · simp [mLoad, hld, hput] at h
        · have hrest : mLoad cap pfuel lf m1 ((rest.map encodeRec).flatten) =
              some (.ok m') := by
            simpa [mLoad, hld, hput] using h
          have hseq := ih lf m1 m' hrest
          simp [putSeq, hput, hseq]

/-! ### Truncations of the canonical format -/

/-- A stream that ends right after a complete header is a clean EOF. -/
theorem loadRec_header_only (key val : List Nat) :
    loadRec (encHeader key val) = .error .eof := by
  have hsc : scanHeader (encHeader key val) = .ok (key.length, val.length, []) := by
    have h := scanHeader_enc key val []
    simpa using h
  cases key with
  | nil => simp [loadRec, hsc, readFull]
  | cons b bs => simp [loadRec, hsc, readFull]

/-- A stream cut inside the key bytes is a short read. -/
theorem loadRec_key_trunc (key val : List Nat) (p : Nat) (hp : 0 < p)
    (hlt : p < key.length) :
    loadRec (encHeader key val ++ key.take p) = .error .unexpectedEof := by
  have hsc := scanHeader_enc key val (key.take p)
  have hlen : (key.take p).length = p := by
    rw [List.length_take]
    omega
  have hrf : readFull key.length (key.take p) = .error .unexpectedEof := by
    have h1 : ¬ key.length ≤ p := by omega
    have h2 : ¬ p = 0 := by omega
    have h3 : ¬ key = [] := by
      intro hc
      rw [hc] at hlt
      simp at hlt
    simp [readFull, h1, h2, h3]
  simp [loadRec, hsc, hrf]

/-- Two bytes other than `->` after the key are the descriptive error. -/
theorem loadRec_bad_sep (key val : List Nat) (a b : Nat) (rest : List Nat)
    (hab : ¬ (a = 45 ∧ b = 62)) :
    loadRec (encHeader key val ++ (key ++ (a :: b :: rest))) = .error (.badSep a b) := by
  have hsc := scanHeader_enc key val (key ++ (a :: b :: rest))
  have hk := readFull_left key (a :: b :: rest)
  have hsep : readFull 2 (a :: b :: rest) = .ok ([a, b], rest) :=
    readFull_left [a, b] rest
  simp [loadRec, hsc, hk, hsep, hab]

/-- A byte other than a newline after the value is the descriptive error. -/
theorem loadRec_bad_term (key val : List Nat) (t : Nat) (rest : List Nat)
    (ht : ¬ t = 10) :
    loadRec (encHeader key val ++ (key ++ (45 :: 62 :: (val ++ (t :: rest))))) =
      .error (.badTerm t) := by
  have hsc := scanHeader_enc key val (key ++ (45 :: 62 :: (val ++ (t :: rest))))
  have hk := readFull_left key (45 :: 62 :: (val ++ (t :: rest)))
  have hsep : readFull 2 (45 :: 62 :: (val ++ (t :: rest))) =
      .ok ([45, 62], val ++ (t :: rest)) := readFull_left [45, 62] (val ++ (t :: rest))
  have hv : readFull val.length (val ++ (t :: rest)) = .ok (val, t :: rest) :=
    readFull_left val (t :: rest)
  simp [loadRec, hsc, hk, hsep, hv, ht]


/-! ### Claim theorems -/

/-- C1: every key put (with pairwise-distinct keys) through a fixed-count
writer created by `NewWriter` with positive `n`, once closed and reopened
with `NewReader`, reads back exactly the value bytes that were put. -/
theorem mcdb_C1 (n : Int) (hn : 0 < n) (cap fuel : Nat) (puts : List Rec)
    (hnodup : (puts.map Prod.fst).Nodup) (m' : MWriter)
    (hok : putList cap fuel (newMWriter [] n) puts = some (.ok m'))
    (key val : List Nat) (hmem : (key, val) ∈ puts) :
    ∃ r, newReaderDir (closeM m').dir = .ok r ∧ getM r key = .ok (some val) := by
  obtain ⟨k, hwp, hshape⟩ := newMWriter_empty n
  have hdec : decide (n ≤ 0) = false := by
    rw [decide_eq_false_iff_not]
    omega
  rw [hdec] at hshape
  rw [putList, hshape] at hok
  have hok2 : putSeq (putM cap fuel) ⟨[] ++ genDir k (fun _ => []), genNames k,
      32 - (k : Int), false⟩ puts = some (.ok m') := hok
  obtain ⟨hm', hall⟩ := putSeq_stuck_ok cap fuel [] k false (by simp)
    (fun recs0 hc => by simp at hc) puts (fun _ => []) m' hok2
  obtain ⟨b, hbk, hblt⟩ := hall (key, val) hmem
  have hm'2 : m' = ⟨genDir k (fun i => bucketFilter k puts i), genNames k,
      32 - (k : Int), false⟩ := by
    rw [hm']
    simp
  have hrd : newReaderDir (closeM m').dir =
      .ok ⟨(List.range (2 ^ k)).map (fun i => bucketFilter k puts i), expOf (2 ^ k), 1⟩ := by
    rw [hm'2]
    exact newReaderDir_complete (2 ^ k) (k + 1) (by positivity) _ _ (List.Perm.refl _)
  refine ⟨_, hrd, ?_⟩
  have hsub : ((bucketFilter k puts b).map Prod.fst).Sublist (puts.map Prod.fst) :=
    List.Sublist.map _ (List.filter_sublist _)
  have hnd2 : ((bucketFilter k puts b).map Prod.fst).Nodup := hnodup.sublist hsub
  have hmem2 : (key, val) ∈ bucketFilter k puts b :=
    List.mem_filter.mpr ⟨hmem, by simp [bucketFilter, hbk]⟩
  have hfind := find_keys_nodup (bucketFilter k puts b) hnd2 key val hmem2
  have hexp : expOf (2 ^ k) = 32 - (k : Int) := expOf_pow2 k
  have hlen : ((List.range (2 ^ k)).map (fun i => bucketFilter k puts i)).length = 2 ^ k := by
    simp
  have hb2 : b < ((List.range (2 ^ k)).map (fun i => bucketFilter k puts i)).length := by
    rw [hlen]
    exact hblt
  have hgetb : ((List.range (2 ^ k)).map (fun i => bucketFilter k puts i)).get ⟨b, hb2⟩ =
      bucketFilter k puts b := by
    simp
  simp [getM, hexp, hbk, hlen, hblt, hgetb, cdbGet, hfind]


/-- C2: a growth-enabled writer (`NewWriter` with `n ≤ 0`) does not survive a
second growth: the reopen inside the growth path sees both old- and
new-generation files, fails with a read error, and leaves the put sequence
failed, so not every put record is preserved. -/
theorem mcdb_C2 :
    putList 2 9 (newMWriter [] (-1)) [([0], []), ([1], []), ([2], [])] =
      some (.error (.readFail .firstNum,
        [(("mcdb-v1-1,0.cdb").toList, [([0], []), ([1], [])]),
         (("mcdb-v1-2,00.cdb").toList, [([2], []), ([0], [])]),
         (("mcdb-v1-2,01.cdb").toList, [])])) ∧
    newReaderDir [(("mcdb-v1-1,0.cdb").toList, [([0], []), ([1], [])]),
      (("mcdb-v1-2,00.cdb").toList, [([2], []), ([0], [])]),
      (("mcdb-v1-2,01.cdb").toList, [])] = .error .firstNum :=
  ⟨rfl, rfl⟩

/-- C3: a successful `Load` of a reader's `Dump` into a fresh writer of any
requested shard count yields a shard set holding exactly the reader's full
iteration, as a multiset. -/
theorem mcdb_C3 (r : MReader) (n : Int) (cap pfuel lfuel : Nat) (m' : MWriter)
    (hok : mLoad cap pfuel lfuel (newMWriter [] n) (mDump r) = some (.ok m')) :
    (contentsW m').Perm (readerSeq r) := by
  have hseq := mLoad_encoded_ok cap pfuel (readerSeq r) lfuel (newMWriter [] n) m' hok
  obtain ⟨k, hwp, hshape⟩ := newMWriter_empty n
  rw [hshape] at hseq
  obtain ⟨k', recs', hm', hkle, hperm⟩ := putSeq_genW_ok cap pfuel (readerSeq r) k
    (fun _ => []) (decide (n ≤ 0)) m' hseq
  have hnil : contentsW (genW k (fun _ => []) (decide (n ≤ 0))) = [] := by
    rw [contentsW_genW]
    exact flatten_map_nil _
  rw [hnil] at hperm
  simpa using hperm

/-- C4 (amended): `NewWriter(dir, n)` enables growth exactly when `n ≤ 0`,
and in every case — growth-enabled included — rounds the requested count
(2 when `n = 0`, else `|n|`) up to the next power of two. -/
theorem mcdb_C4 : ∀ n : Int, ∃ k : Nat,
    (newMWriter [] n).canGrow = decide (n ≤ 0) ∧
    (newMWriter [] n).expC = 32 - (k : Int) ∧
    (newMWriter [] n).ws.length = 2 ^ k ∧
    (if n = 0 then 2 else n.natAbs) ≤ 2 ^ k ∧
    (k = 0 ∨ 2 ^ (k - 1) < (if n = 0 then 2 else n.natAbs)) := by
  intro n
  obtain ⟨k, hp, hle, hmin⟩ := writerParams_spec n
  obtain ⟨k2, hp2, hshape⟩ := newMWriter_empty n
  have heq := hp.symm.trans hp2
  simp only [Prod.mk.injEq] at heq
  have hk2 : k2 = k := Nat.pow_right_injective (by norm_num) heq.2.1.symm
  subst hk2
  refine ⟨k2, ?_, ?_, ?_, hle, hmin⟩ <;> simp [hshape, genW, genNames_length]

/-- C4 counterexample: `NewWriter` with `n = -3` creates four shard files,
not the three the `|n|` rule would give. -/
theorem mcdb_C4_cex :
    (newMWriter [] (-3)).ws.length = 4 ∧ ¬ (newMWriter [] (-3)).ws.length = 3 :=
  ⟨rfl, by decide⟩

/-- C5: a directory with no name matching the shard pattern fails to open
with the no-files error, and a complete-looking set with a missing shard
index fails naming the first gap. -/
theorem mcdb_C5 :
    (∀ files : Dir, (∀ f ∈ files, matchesPat f.1 = false) →
      newReaderDir files = .error .noFiles) ∧
    newReaderDir [(mkName 4 0 3, []), (mkName 4 2 3, [])] = .error (.missingIdx 4 1) := by
  constructor
  · intro files hall
    have hsorted : ∀ f ∈ sortDir files, matchesPat f.1 = false := fun f hf =>
      hall f ((List.perm_insertionSort fileLe files).mem_iff.mp hf)
    have hscan := scanAll_skip_all initScan (sortDir files) hsorted
    simp only [newReaderDir]
    rw [hscan]
    rfl
  · rfl

/-- C6: a parsed shard index at or above the total is not caught by the
`u1 < u2` guard: index = total and total = 0 both reach the out-of-range
slot write (a runtime panic, `indexPanic`), while only index > total gets
the structural error. -/
theorem mcdb_C6 :
    newReaderDir [("mcdb-v1-4,100.cdb".toList, [])] = .error (.indexPanic 4) ∧
    newReaderDir [("mcdb-v1-0,0.cdb".toList, [])] = .error (.indexPanic 0) ∧
    newReaderDir [("mcdb-v1-4,101.cdb".toList, [])] = .error .secondNum :=
  ⟨rfl, rfl, rfl⟩

/-- A stream cut inside the two-byte separator (one byte present) is a
short read. -/
theorem loadRec_sep_trunc (key val : List Nat) (a : Nat) :
    loadRec (encHeader key val ++ (key ++ [a])) = .error .unexpectedEof := by
  have hsc := scanHeader_enc key val (key ++ [a])
  have hk := readFull_left key [a]
  have hsep : readFull 2 [a] = .error .unexpectedEof := by simp [readFull]
  simp [loadRec, hsc, hk, hsep]

/-- A stream cut inside the value bytes is a short read. -/
theorem loadRec_val_trunc (key val : List Nat) (p : Nat) (hp : 0 < p)
    (hlt : p < val.length) :
    loadRec (encHeader key val ++ (key ++ (45 :: 62 :: val.take p))) =
      .error .unexpectedEof := by
  have hsc := scanHeader_enc key val (key ++ (45 :: 62 :: val.take p))
  have hk := readFull_left key (45 :: 62 :: val.take p)
  have hsep : readFull 2 (45 :: 62 :: val.take p) = .ok ([45, 62], val.take p) :=
    readFull_left [45, 62] (val.take p)
  have hrf : readFull val.length (val.take p) = .error .unexpectedEof := by
    have h1 : ¬ val.length ≤ p := by omega
    have h2 : ¬ p = 0 := by omega
    have h3 : ¬ val = [] := by
      intro hc
      rw [hc] at hlt
      simp at hlt
    simp [readFull, h1, h2, h3]
  simp [loadRec, hsc, hk, hsep, hrf]

/-- A stream cut inside the header, right after the first number, is
converted to clean EOF. -/
theorem loadRec_header_trunc (n : Nat) :
    loadRec (43 :: (decChars n).map Char.toNat) = .error .eof := by
  have hp : parseNum byteDecDigit 10 ((decChars n).map Char.toNat ++ []) = some (n, []) :=
    parseNum_decBytes n [] (Or.inl rfl)
  rw [List.append_nil] at hp
  simp [loadRec, scanHeader, hp]

/-- A stream that ends with the whole key but none of the separator is
clean EOF (the zero-byte read). -/
theorem loadRec_sep_start (key val : List Nat) :
    loadRec (encHeader key val ++ key) = .error .eof := by
  have hsc := scanHeader_enc key val key
  have hk : readFull key.length key = .ok (key, []) := by
    have h := readFull_left key []
    simpa using h
  have hsep : readFull 2 [] = .error .eof := by simp [readFull]
  simp [loadRec, hsc, hk, hsep]

/-- A stream that ends right after the separator, before any value byte, is
clean EOF. -/
theorem loadRec_val_start (key val : List Nat) :
    loadRec (encHeader key val ++ (key ++ [45, 62])) = .error .eof := by
  have hsc := scanHeader_enc key val (key ++ [45, 62])
  have hk := readFull_left key [45, 62]
  have hsep : readFull 2 [45, 62] = .ok ([45, 62], []) := by
    have h := readFull_left [45, 62] []
    simpa using h
  cases val with
  | nil => simp [loadRec, hsc, hk, hsep, readFull]
  | cons b bs => simp [loadRec, hsc, hk, hsep, readFull]

/-- A stream that ends with the whole value but no terminator byte is
clean EOF. -/
theorem loadRec_term_start (key val : List Nat) :
    loadRec (encHeader key val ++ (key ++ (45 :: 62 :: val))) = .error .eof := by
  have hsc := scanHeader_enc key val (key ++ (45 :: 62 :: val))
  have hk := readFull_left key (45 :: 62 :: val)
  have hsep : readFull 2 (45 :: 62 :: val) = .ok ([45, 62], val) :=
    readFull_left [45, 62] val
  have hv : readFull val.length val = .ok (val, []) := by
    have h := readFull_left val []
    simpa using h
  simp [loadRec, hsc, hk, hsep, hv]

/-- C7 (amended): the canonical decode accepts every whole record and stops
cleanly at a record boundary; truncation strictly inside the key bytes, the
two-byte separator or the value bytes is a short read, and a wrong separator
or terminator is the descriptive error.  However, end-of-input inside the
header line, or exactly at the start of any component (key, separator,
value, terminator), is converted to the clean-EOF signal and terminates the
load silently — see the counterexample. -/
theorem mcdb_C7 :
    (∀ key val rest, loadRec (encodeRec (key, val) ++ rest) = .ok ((key, val), rest)) ∧
    (loadRec [] = .error .eof) ∧
    (∀ cap pfuel m, mLoad cap pfuel 1 m [] = some (.ok m)) ∧
    (∀ key val p, 0 < p → p < key.length →
      loadRec (encHeader key val ++ key.take p) = .error .unexpectedEof) ∧
    (∀ key val a, loadRec (encHeader key val ++ (key ++ [a])) = .error .unexpectedEof) ∧
    (∀ key val p, 0 < p → p < val.length →
      loadRec (encHeader key val ++ (key ++ (45 :: 62 :: val.take p))) =
        .error .unexpectedEof) ∧
    (∀ key val a b rest, ¬ (a = 45 ∧ b = 62) →
      loadRec (encHeader key val ++ (key ++ (a :: b :: rest))) = .error (.badSep a b)) ∧
    (∀ key val t rest, ¬ t = 10 →
      loadRec (encHeader key val ++ (key ++ (45 :: 62 :: (val ++ (t :: rest))))) =
        .error (.badTerm t)) ∧
    (∀ n, loadRec (43 :: (decChars n).map Char.toNat) = .error .eof) ∧
    (∀ key val, loadRec (encHeader key val) = .error .eof) ∧
    (∀ key val, loadRec (encHeader key val ++ key) = .error .eof) ∧
    (∀ key val, loadRec (encHeader key val ++ (key ++ [45, 62])) = .error .eof) ∧
    (∀ key val, loadRec (encHeader key val ++ (key ++ (45 :: 62 :: val))) = .error .eof) := by
  refine ⟨loadRec_enc, loadRec_nil, ?_, loadRec_key_trunc, loadRec_sep_trunc,
    loadRec_val_trunc, loadRec_bad_sep, loadRec_bad_term, loadRec_header_trunc,
    loadRec_header_only, loadRec_sep_start, loadRec_val_start, loadRec_term_start⟩
  intro cap pfuel m
  simp [mLoad, loadRec_nil]

/-- C7 counterexample: the stream `"+3"`, cut inside the record's length
prefix, loads with no error (the header scan's unexpected-EOF is converted
to clean EOF), contradicting the claim that any truncation strictly inside
a record fails the load. -/
theorem mcdb_C7_cex :
    mLoad 100 0 1 (newMWriter [] 1) [43, 51] = some (.ok (newMWriter [] 1)) ∧
    loadRec [43, 51] = .error .eof :=
  ⟨rfl, rfl⟩

/-- C8: the merged iterator yields exactly the concatenation of the shards
in increasing index order, and `Next` is exhausted precisely when the
current cursor and every higher-indexed shard are empty. -/
theorem mcdb_C8 (r : MReader) : readerSeq r = r.rs.flatten ∧
    ∀ s : ItSt, itNext s = none ↔ (s.cur = [] ∧
      ∀ j (hj : j < s.rs.length), s.i < j → s.rs.get ⟨j, hj⟩ = []) := by
  refine ⟨readerSeq_eq_flatten r, ?_⟩
  intro s
  rcases s with ⟨rs, i, cur⟩
  cases cur with
  | cons hd tl => simp [itNext]
  | nil =>
    simp only [itNext]
    constructor
    · intro h
      refine ⟨by simp, ?_⟩
      rcases ha : advanceIt rs rs.length i with _ | ⟨j, rec, rest⟩
      · exact (advanceIt_none_iff rs rs.length i (by omega)).mp ha
      · rw [ha] at h
        simp at h
    · rintro ⟨-, hall⟩
      have hnone := (advanceIt_none_iff rs rs.length i (by omega)).mpr hall
      simp [hnone]


/-- C9 (amended): `NewWriter` always creates `2^(32-expC)` shards, and a
successful `Put` preserves the relation — a growth doubles the shard count
and decrements the exponent — while `NewReader` satisfies it on (and only
guarantees it for) power-of-two shard sets. -/
theorem mcdb_C9 :
    (∀ n : Int, ∃ k : Nat, (newMWriter [] n).ws.length = 2 ^ k ∧
      (newMWriter [] n).expC = 32 - (k : Int)) ∧
    (∀ cap fuel k recs g key val m',
      putM cap fuel (genW k recs g) key val = some (.ok m') →
      ∃ k' recs', m' = genW k' recs' g ∧ m'.ws.length = 2 ^ k' ∧
        m'.expC = 32 - (k' : Int) ∧
        (k' = k ∨ (k' = k + 1 ∧ g = true ∧
          m'.ws.length = 2 * (genW k recs g).ws.length ∧
          m'.expC = (genW k recs g).expC - 1))) ∧
    (∀ k recs, newReaderDir (genDir k recs) =
      .ok ⟨(List.range (2 ^ k)).map recs, 32 - (k : Int), 1⟩) := by
  refine ⟨?_, ?_, ?_⟩
  · intro n
    obtain ⟨k, hp, hshape⟩ := newMWriter_empty n
    exact ⟨k, by simp [hshape, genW, genNames_length], by simp [hshape, genW]⟩
  · intro cap fuel k recs g key val m' h
    obtain ⟨k', recs', hm', hperm, hcase⟩ := putM_genW_ok cap fuel k recs g key val m' h
    refine ⟨k', recs', hm', ?_, ?_, ?_⟩
    · rw [hm']
      exact genW_ws_length k' recs' g
    · rw [hm']
      rfl
    · rcases hcase with rfl | ⟨rfl, hg⟩
      · exact Or.inl rfl
      · refine Or.inr ⟨rfl, hg, ?_, ?_⟩
        · rw [hm']
          simp only [genW_ws_length]
          ring
        · rw [hm']
          simp only [genW]
          push_cast
          ring
  · intro k recs
    have hc := newReaderDir_complete (2 ^ k) (k + 1) (by positivity) recs
      (genDir k recs) (List.Perm.refl _)
    rw [expOf_pow2] at hc
    exact hc

/-- C9 counterexample: `NewReader` accepts a complete three-shard directory
and derives `expC = 30`, so `shardCount = 2^(32-expC)` fails (3 ≠ 4):
the invariant does not hold for every reader `NewReader` returns. -/
theorem mcdb_C9_cex :
    newReaderDir [("mcdb-v1-3,00.cdb".toList, []), ("mcdb-v1-3,01.cdb".toList, []),
      ("mcdb-v1-3,10.cdb".toList, [])] = .ok ⟨[[], [], []], 30, 1⟩ ∧
    ¬ ((3 : Nat) = 2 ^ (32 - 30)) :=
  ⟨rfl, by decide⟩

/-- C10: after `Close` empties the shard-writer slice, any `Put` whose key
routes at all indexes the empty slice out of range (a runtime panic) rather
than returning a typed error. -/
theorem mcdb_C10 (m : MWriter) (cap fuel : Nat) (key val : List Nat) (b : Nat)
    (hb : bucket fnvHash key m.expC = some b) :
    putM cap fuel (closeM m) key val = some (.error (.panicIdx, m.dir)) := by
  obtain ⟨recur, hr⟩ := putM_as_step cap fuel
  rw [hr]
  simp [putStep, closeM, hb]

/-- A concrete run of C1: one record through a one-shard fixed writer. -/
theorem mcdb_C1_witness :
    ∃ r, newReaderDir (closeM ⟨[("mcdb-v1-1,0.cdb".toList, [([7], [8])])],
      ["mcdb-v1-1,0.cdb".toList], 32, false⟩).dir = .ok r ∧
      getM r [7] = .ok (some [8]) :=
  mcdb_C1 1 (by decide) 100 0 [([7], [8])] (by decide) _ (by rfl) [7] [8] (by decide)

/-- A concrete run of C3: dump one record, load it into a fresh writer. -/
theorem mcdb_C3_witness :
    (contentsW ⟨[("mcdb-v1-1,0.cdb".toList, [([7], [8])])],
      ["mcdb-v1-1,0.cdb".toList], 32, false⟩).Perm (readerSeq ⟨[[([7], [8])]], 32, 1⟩) :=
  mcdb_C3 ⟨[[([7], [8])]], 32, 1⟩ 1 100 0 2 _ (by rfl)

/-- A concrete run of C10: a put on a closed one-shard writer panics. -/
theorem mcdb_C10_witness :
    putM 1 0 (closeM (newMWriter [] 1)) [7] [8] =
      some (.error (.panicIdx, (newMWriter [] 1).dir)) :=
  mcdb_C10 (newMWriter [] 1) 1 0 [7] [8] 0 (by rfl)

end Mcdb
